import Mathlib

/-!
Verification of the Coldbase log-structured storage engine.

This file gives a shallow embedding of the core of the engine
(src/lib/utils.ts, src/lib/compactor.ts, src/lib/db.ts,
src/lib/vector-collection.ts, src/lib/vector-utils.ts, src/lib/types.ts)
and proves properties of the embedded definitions.

Modelling conventions:
- JavaScript numbers used as timestamps, sizes and counters are `Nat`;
  vector components and scores are `ℚ` (exact stand-ins for floats; the
  properties proved are order-theoretic and do not depend on rounding).
- A parsed snapshot line or mutation record `[id, data, ts]` is `Rec`:
  `data = none` is the JSON `null` tombstone, `ts = none` a two-element
  line without a timestamp.  Unparseable lines are `Line.malformed`,
  unparseable (or non-array) mutation blobs are `none`.
- Storage is the per-collection blob set (`C.jsonl`, `C.mutation.*`,
  `C.jsonl.tmp`, `C.idx`, `C.bloom`, `C.lock`) as a `Store`.  Mutation
  blobs are kept in listing order.  Byte offsets inside `C.jsonl` are
  abstracted to line positions (the offset unit is an open question of
  the design and orthogonal to the claims below).
- The embedding is sequential: "no concurrent writers" is built into the
  state-transformer semantics of compaction and vacuum.
- Collections are embedded under the default configuration of
  src/lib/types.ts (`useIndex = false`, `useBloomFilter = false`, no
  `ttlField`), so reads take the full-scan path and `isExpired` is
  constantly false.
-/

namespace Coldbase

/-- A record `[id, data, ts]` as yielded by `Collection.read`
(src/lib/db.ts).  `data = none` is the tombstone, `ts = none` models a
line without a timestamp (accepted on read). -/
structure Rec (α : Type) where
  id : String
  data : Option α
  ts : Option Nat
deriving DecidableEq, Repr

/-- One line of `C.jsonl`: either a parsed record or a line whose
`JSON.parse` fails (skipped by every reader). -/
inductive Line (α : Type) where
  | entry (r : Rec α)
  | malformed
deriving DecidableEq, Repr

def lineRec {α : Type} : Line α → Option (Rec α)
  | .entry r => some r
  | .malformed => none

/-- The per-collection blob set.  `muts` holds the mutation blobs in
listing order; a `none` entry is a blob whose body fails to parse as a
JSON array (logged and skipped by readers and by the compactor). -/
structure Store (α : Type) where
  main : Option (List (Line α))
  muts : List (Option (List (Rec α)))
  tmp : Option (List (Line α))
  idx : Option (List (String × Nat))
  bloom : Option (List String)
  lock : Option Nat
deriving DecidableEq

/-- `Collection.read` (src/lib/db.ts): stream the snapshot lines, then
every well-formed mutation blob in listing order (no time-travel bound,
i.e. `at` unset). -/
def readStream {α : Type} (st : Store α) : List (Rec α) :=
  (st.main.getD []).filterMap lineRec ++ (st.muts.filterMap (fun b => b)).flatten

/-! ### JavaScript `Map` as an insertion-ordered association list

A faithful model of the builtin `Map`: `set` updates an existing key in
place (insertion position retained) and appends a fresh key at the end;
`get` returns the entry's value.  All maps in the engine start empty, so
keys are unique by construction. -/

def lookupKV {β : Type} (m : List (String × β)) (k : String) : Option β :=
  (m.find? (fun p => p.1 == k)).map (·.2)

def mapSet {β : Type} : List (String × β) → String → β → List (String × β)
  | [], k, v => [(k, v)]
  | e :: t, k, v => if e.1 = k then (k, v) :: t else e :: mapSet t k v

theorem lookupKV_nil {β : Type} (k : String) : lookupKV ([] : List (String × β)) k = none := rfl

theorem lookupKV_cons {β : Type} (e : String × β) (t : List (String × β)) (k : String) :
    lookupKV (e :: t) k = if e.1 = k then some e.2 else lookupKV t k := by
  by_cases h : e.1 = k
  · rw [if_pos h]
    have hb : (e.1 == k) = true := by simpa using h
    simp [lookupKV, List.find?, hb]
  · rw [if_neg h]
    have hb : (e.1 == k) = false := by simpa using h
    simp [lookupKV, List.find?, hb]

theorem lookupKV_mapSet {β : Type} (m : List (String × β)) (k k2 : String) (v : β) :
    lookupKV (mapSet m k v) k2 = if k2 = k then some v else lookupKV m k2 := by
  induction m with
  | nil =>
    show lookupKV [(k, v)] k2 = _
    rw [lookupKV_cons]
    by_cases h : k2 = k
    · rw [if_pos h.symm, if_pos h]
    · rw [if_neg (Ne.symm h), if_neg h]
  | cons e t ih =>
    by_cases he : e.1 = k
    · show lookupKV (if e.1 = k then (k, v) :: t else e :: mapSet t k v) k2 = _
      rw [if_pos he, lookupKV_cons, lookupKV_cons]
      by_cases h2 : k2 = k
      · rw [if_pos h2.symm, if_pos h2]
      · rw [if_neg (Ne.symm h2), if_neg h2,
          if_neg (show ¬ e.1 = k2 from fun hh => h2 (hh.symm.trans he))]

    · show lookupKV (if e.1 = k then (k, v) :: t else e :: mapSet t k v) k2 = _
      rw [if_neg he, lookupKV_cons, lookupKV_cons]
      by_cases h2 : e.1 = k2
      · rw [if_pos h2, if_pos h2, if_neg (show ¬ k2 = k from fun hh => he (h2.trans hh))]
      · rw [if_neg h2, if_neg h2, ih]

theorem mapSet_keys_mem {β : Type} (m : List (String × β)) (k k2 : String) (v : β) :
    k2 ∈ (mapSet m k v).map Prod.fst ↔ k2 = k ∨ k2 ∈ m.map Prod.fst := by
  induction m with
  | nil => simp [mapSet]
  | cons e t ih =>
    show k2 ∈ ((if e.1 = k then (k, v) :: t else e :: mapSet t k v).map Prod.fst) ↔ _
    by_cases he : e.1 = k
    · rw [if_pos he]
      simp only [List.map_cons, List.mem_cons, he]
      tauto
    · rw [if_neg he]
      simp only [List.map_cons, List.mem_cons, ih]
      tauto

theorem mapSet_keys_nodup {β : Type} (m : List (String × β)) (k : String) (v : β)
    (h : (m.map Prod.fst).Nodup) : ((mapSet m k v).map Prod.fst).Nodup := by
  induction m with
  | nil => simp [mapSet]
  | cons e t ih =>
    simp only [List.map_cons, List.nodup_cons] at h
    show ((if e.1 = k then (k, v) :: t else e :: mapSet t k v).map Prod.fst).Nodup
    by_cases he : e.1 = k
    · rw [if_pos he]
      simp only [List.map_cons, List.nodup_cons]
      exact ⟨by simpa [he] using h.1, h.2⟩
    · rw [if_neg he]
      simp only [List.map_cons, List.nodup_cons]
      refine ⟨?_, ih h.2⟩
      intro hmem
      rcases (mapSet_keys_mem t k e.1 v).mp hmem with h1 | h1
      · exact he h1
      · exact h.1 h1

/-! ### Last-record characterisations of the read-path folds -/

/-- The last record of the stream carrying a given id (the effective
record under the engine's stream-order semantics). -/
def lastRec {α : Type} (recs : List (Rec α)) (k : String) : Option (Rec α) :=
  recs.reverse.find? (fun r => r.id == k)

theorem lastRec_nil {α : Type} (k : String) : lastRec ([] : List (Rec α)) k = none := rfl

theorem lastRec_append {α : Type} (a b : List (Rec α)) (k : String) :
    lastRec (a ++ b) k = (lastRec b k).or (lastRec a k) := by
  unfold lastRec
  rw [List.reverse_append, List.find?_append]

theorem lastRec_singleton {α : Type} (r : Rec α) (k : String) :
    lastRec [r] k = if r.id = k then some r else none := by
  by_cases h : r.id = k
  · have hb : (r.id == k) = true := by simpa using h
    simp [lastRec, List.find?, hb, h]
  · have hb : (r.id == k) = false := by simpa using h
    simp [lastRec, List.find?, hb, h]

theorem lastRec_cons {α : Type} (r : Rec α) (t : List (Rec α)) (k : String) :
    lastRec (r :: t) k = (lastRec t k).or (if r.id = k then some r else none) := by
  have hsplit : r :: t = [r] ++ t := rfl
  rw [hsplit, lastRec_append, lastRec_singleton]

/-- The accumulator fold used by `Collection.get`'s full scan:
`for await (record of read()) if (record.id === id) result = record.data`. -/
def scanLast {α : Type} (recs : List (Rec α)) (k : String) : Option (Option α) :=
  recs.foldl (fun acc r => if r.id = k then some r.data else acc) none

theorem scanLast_go {α : Type} (recs : List (Rec α)) (k : String) (init : Option (Option α)) :
    recs.foldl (fun acc r => if r.id = k then some r.data else acc) init
      = ((lastRec recs k).map Rec.data).or init := by
  induction recs generalizing init with
  | nil => rfl
  | cons r t ih =>
    rw [List.foldl_cons, ih, lastRec_cons]
    by_cases h : r.id = k
    · rw [if_pos h, if_pos h]
      cases hl : lastRec t k <;> simp [Option.or]
    · rw [if_neg h, if_neg h]
      cases hl : lastRec t k <;> simp [Option.or]

theorem scanLast_eq_lastRec {α : Type} (recs : List (Rec α)) (k : String) :
    scanLast recs k = (lastRec recs k).map Rec.data := by
  unfold scanLast
  rw [scanLast_go]
  cases lastRec recs k <;> simp [Option.or]

/-- `latestFold`: the `latest` map built by `find` / `count`:
`for (const {id, data} of read()) latest.set(id, data)`. -/
def latestFold {α : Type} (recs : List (Rec α)) : List (String × Option α) :=
  recs.foldl (fun m r => mapSet m r.id r.data) []

theorem latestFold_go_lookup {α : Type} (recs : List (Rec α)) (k : String)
    (init : List (String × Option α)) :
    lookupKV (recs.foldl (fun m r => mapSet m r.id r.data) init) k
      = ((lastRec recs k).map Rec.data).or (lookupKV init k) := by
  induction recs generalizing init with
  | nil => cases h : lookupKV init k <;> simp [lastRec_nil, Option.or, h]
  | cons r t ih =>
    rw [List.foldl_cons, ih, lastRec_cons, lookupKV_mapSet]
    by_cases h : r.id = k
    · rw [if_pos h.symm, if_pos h]
      cases hl : lastRec t k <;> simp [Option.or]
    · rw [if_neg (show ¬ k = r.id from fun hh => h hh.symm), if_neg h]
      cases hl : lastRec t k <;> simp [Option.or]

theorem latestFold_lookup {α : Type} (recs : List (Rec α)) (k : String) :
    lookupKV (latestFold recs) k = (lastRec recs k).map Rec.data := by
  unfold latestFold
  rw [latestFold_go_lookup]
  cases h : lastRec recs k <;> simp [Option.or, lookupKV_nil]

theorem latestFold_go_keys {α : Type} (recs : List (Rec α)) (k : String)
    (init : List (String × Option α)) :
    k ∈ ((recs.foldl (fun m r => mapSet m r.id r.data) init).map Prod.fst)
      ↔ k ∈ init.map Prod.fst ∨ k ∈ recs.map Rec.id := by
  induction recs generalizing init with
  | nil => simp
  | cons r t ih =>
    rw [List.foldl_cons, ih, mapSet_keys_mem]
    simp only [List.map_cons, List.mem_cons]
    tauto

theorem latestFold_go_nodup {α : Type} (recs : List (Rec α))
    (init : List (String × Option α)) (h : (init.map Prod.fst).Nodup) :
    ((recs.foldl (fun m r => mapSet m r.id r.data) init).map Prod.fst).Nodup := by
  induction recs generalizing init with
  | nil => exact h
  | cons r t ih => exact ih _ (mapSet_keys_nodup _ _ _ h)

theorem latestFold_keys_nodup {α : Type} (recs : List (Rec α)) :
    ((latestFold recs).map Prod.fst).Nodup :=
  latestFold_go_nodup recs [] (by simp)

theorem latestFold_keys_mem {α : Type} (recs : List (Rec α)) (k : String) :
    k ∈ (latestFold recs).map Prod.fst ↔ k ∈ recs.map Rec.id := by
  unfold latestFold
  rw [latestFold_go_keys]
  simp

end Coldbase

namespace Coldbase

/-! ### Collection read operations (src/lib/db.ts), default configuration -/

/-- `Collection.get` slow path: full scan remembering the latest record
for the id; `null` (tombstone) and "never seen" both return `none`. -/
def Collection.get {α : Type} (st : Store α) (k : String) : Option α :=
  (scanLast (readStream st) k).join

/-- `Array.prototype.slice(offset, limit ? offset + limit : undefined)`
guarded by `if (offset || limit)` — note JavaScript truthiness: both
`offset = 0` and `limit = 0` are falsy. -/
def jsSlice {α : Type} (results : List α) (offset : Nat) (limit : Option Nat) : List α :=
  if offset ≠ 0 ∨ limit.isSome then
    match limit with
    | some l => if l = 0 then results.drop offset else (results.drop offset).take l
    | none => results.drop offset
  else results

/-- `Collection.find`: build the latest-per-id map from `read()`, keep
non-tombstones passing `where`, then slice.  The caller-supplied
predicate form of `where` subsumes the partial-object equality form. -/
def Collection.find {α : Type} (st : Store α) (wh : Option (α → Bool))
    (limit : Option Nat) (offset : Nat) : List α :=
  let latest := latestFold (readStream st)
  let results := latest.filterMap (fun p =>
    match p.2 with
    | none => none
    | some d =>
      match wh with
      | some f => if f d then some d else none
      | none => some d)
  jsSlice results offset limit

/-- `Collection.count`: the latest-per-id map's non-tombstone entries. -/
def Collection.count {α : Type} (st : Store α) : Nat :=
  ((latestFold (readStream st)).filter (fun p => p.2.isSome)).length

/-- `Collection.getMany`: one scan filtered against the id set, then the
non-tombstone entries of the latest map. -/
def Collection.getMany {α : Type} (st : Store α) (ids : List String) : List (String × α) :=
  let latest := (readStream st).foldl
    (fun m r => if ids.contains r.id then mapSet m r.id r.data else m) []
  latest.filterMap (fun p => p.2.map (fun d => (p.1, d)))

/-- The dedupe rule exactly as the claim words it: collect `read()` into
a map `id → record with largest ts`.  Second definition for the
refinement comparison; it is NOT a translation of the source. -/
def lwwStep {α : Type} (k : String) (acc : Option (Rec α)) (r : Rec α) : Option (Rec α) :=
  if r.id = k then
    match acc with
    | none => some r
    | some c => if c.ts.getD 0 < r.ts.getD 0 then some r else acc
  else acc

def specLwwRecord {α : Type} (recs : List (Rec α)) (k : String) : Option (Rec α) :=
  recs.foldl (lwwStep k) none

/-- Every record of the stream carries a ts, and per id the ts values
strictly increase in stream order. -/
def tsStrictPerId {α : Type} (recs : List (Rec α)) : Prop :=
  (∀ r ∈ recs, r.ts ≠ none) ∧
  recs.Pairwise (fun a b => a.id = b.id → a.ts.getD 0 < b.ts.getD 0)

instance {α : Type} (recs : List (Rec α)) : Decidable (tsStrictPerId recs) := by
  unfold tsStrictPerId
  infer_instance

theorem lwwStep_eq_of_id {α : Type} {k : String} {acc : Option (Rec α)} {r : Rec α}
    (h : r.id = k) (hlt : ∀ c, acc = some c → c.ts.getD 0 < r.ts.getD 0) :
    lwwStep k acc r = some r := by
  unfold lwwStep
  rw [if_pos h]
  cases hc : acc with
  | none => rfl
  | some c => simp [hlt c hc]

theorem lwwStep_eq_of_ne {α : Type} {k : String} {acc : Option (Rec α)} {r : Rec α}
    (h : ¬ r.id = k) : lwwStep k acc r = acc := by
  unfold lwwStep
  rw [if_neg h]

theorem specLww_go {α : Type} (t : List (Rec α)) (k : String) (acc : Option (Rec α))
    (hacc : ∀ c, acc = some c → ∀ r ∈ t, r.id = k → c.ts.getD 0 < r.ts.getD 0)
    (hpw : t.Pairwise (fun a b => a.id = b.id → a.ts.getD 0 < b.ts.getD 0)) :
    t.foldl (lwwStep k) acc = (lastRec t k).or acc := by
  induction t generalizing acc with
  | nil => cases acc <;> rfl
  | cons r t ih =>
    rw [List.foldl_cons, lastRec_cons]
    rcases List.pairwise_cons.mp hpw with ⟨hr, hpt⟩
    by_cases h : r.id = k
    · rw [lwwStep_eq_of_id h (fun c hc => hacc c hc r (List.mem_cons_self r t) h)]
      rw [ih (some r) ?hsome hpt, if_pos h]
      case hsome =>
        intro c hceq s hs hsk
        cases hceq
        exact hr s hs (h.trans hsk.symm)
      cases hl : lastRec t k <;> simp [Option.or]
    · rw [lwwStep_eq_of_ne h]
      rw [ih acc ?hkeep hpt, if_neg h]
      case hkeep =>
        intro c hceq s hs hsk
        exact hacc c hceq s (List.mem_cons_of_mem r hs) hsk
      cases hl : lastRec t k <;> simp [Option.or]

theorem specLww_eq_lastRec {α : Type} (recs : List (Rec α)) (k : String)
    (h : tsStrictPerId recs) : specLwwRecord recs k = lastRec recs k := by
  unfold specLwwRecord
  rw [specLww_go recs k none (by intro c hc; cases hc) h.2]
  cases hl : lastRec recs k <;> simp [Option.or]

/-- Membership in an association list with nodup keys determines lookup. -/
theorem lookupKV_of_mem {β : Type} (m : List (String × β)) (p : String × β)
    (hnd : (m.map Prod.fst).Nodup) (hp : p ∈ m) : lookupKV m p.1 = some p.2 := by
  induction m with
  | nil => cases hp
  | cons e t ih =>
    simp only [List.map_cons, List.nodup_cons] at hnd
    rcases List.mem_cons.mp hp with h | h
    · cases h
      rw [lookupKV_cons, if_pos rfl]
    · rw [lookupKV_cons]
      by_cases he : e.1 = p.1
      · exfalso
        apply hnd.1
        rw [he]
        exact List.mem_map_of_mem Prod.fst h
      · rw [if_neg he]
        exact ih hnd.2 h

theorem mem_of_lookupKV {β : Type} (m : List (String × β)) (k : String) (v : β)
    (h : lookupKV m k = some v) : (k, v) ∈ m := by
  unfold lookupKV at h
  cases hf : m.find? (fun p => p.1 == k) with
  | none => rw [hf] at h; cases h
  | some e =>
    rw [hf] at h
    have he1 : e.1 = k := by simpa using List.find?_some hf
    have he2 : e.2 = v := by simpa using h
    have : e = (k, v) := by
      cases e
      simp_all
    rw [← this]
    exact List.mem_of_find?_eq_some hf

/-- Length of a filterMap equals the count of elements it keeps. -/
theorem length_filterMap_eq_length_filter {β γ : Type} (l : List β) (f : β → Option γ) :
    (l.filterMap f).length = (l.filter (fun a => (f a).isSome)).length := by
  induction l with
  | nil => rfl
  | cons a t ih =>
    rw [List.filterMap_cons]
    cases hf : f a with
    | none =>
      have : (f a).isSome = false := by simp [hf]
      simp [List.filter_cons, this, ih]
    | some c =>
      have : (f a).isSome = true := by simp [hf]
      simp [List.filter_cons, this, ih]

end Coldbase

namespace Coldbase

theorem lookupKV_eq_none_of_not_mem {β : Type} (m : List (String × β)) (k : String)
    (h : k ∉ m.map Prod.fst) : lookupKV m k = none := by
  induction m with
  | nil => rfl
  | cons e t ih =>
    simp only [List.map_cons, List.mem_cons] at h
    push_neg at h
    rw [lookupKV_cons, if_neg (fun hh => h.1 hh.symm)]
    exact ih h.2

/-- Keys of the live-projection of a latest map are among its keys. -/
theorem liveProj_keys_subset {α : Type} (m : List (String × Option α)) (k : String)
    (h : k ∈ (m.filterMap (fun p => p.2.map (fun d => (p.1, d)))).map Prod.fst) :
    k ∈ m.map Prod.fst := by
  rcases List.mem_map.mp h with ⟨q, hq, hqk⟩
  rcases List.mem_filterMap.mp hq with ⟨p, hp, hpq⟩
  cases hv : p.2 with
  | none => rw [hv] at hpq; cases hpq
  | some d =>
    rw [hv] at hpq
    simp only [Option.map_some'] at hpq
    cases hpq
    rw [← hqk]
    exact List.mem_map_of_mem Prod.fst hp

/-- Lookup in the live projection joins the latest-map lookup. -/
theorem lookupKV_liveProj {α : Type} (m : List (String × Option α)) (k : String)
    (hnd : (m.map Prod.fst).Nodup) :
    lookupKV (m.filterMap (fun p => p.2.map (fun d => (p.1, d)))) k
      = (lookupKV m k).join := by
  induction m with
  | nil => rfl
  | cons e t ih =>
    simp only [List.map_cons, List.nodup_cons] at hnd
    rw [List.filterMap_cons]
    cases hv : e.2 with
    | none =>
      simp only [Option.map_none']
      rw [lookupKV_cons]
      by_cases hk : e.1 = k
      · rw [if_pos hk, hv]
        have : k ∉ t.map Prod.fst := by rw [← hk]; exact hnd.1
        have h2 : k ∉ (t.filterMap (fun p => p.2.map (fun d => (p.1, d)))).map Prod.fst :=
          fun hmem => this (liveProj_keys_subset t k hmem)
        rw [lookupKV_eq_none_of_not_mem _ _ h2]
        rfl
      · rw [if_neg hk, ih hnd.2]
    | some d =>
      simp only [Option.map_some']
      rw [lookupKV_cons, lookupKV_cons]
      by_cases hk : e.1 = k
      · rw [if_pos hk, if_pos hk, hv]
        rfl
      · rw [if_neg hk, if_neg hk, ih hnd.2]

/-- The id-set-restricted fold of `getMany` equals `latestFold` of the
filtered stream. -/
theorem getMany_fold_eq {α : Type} (recs : List (Rec α)) (ids : List String)
    (init : List (String × Option α)) :
    recs.foldl (fun m r => if ids.contains r.id then mapSet m r.id r.data else m) init
      = (recs.filter (fun r => ids.contains r.id)).foldl
          (fun m r => mapSet m r.id r.data) init := by
  induction recs generalizing init with
  | nil => rfl
  | cons r t ih =>
    rw [List.foldl_cons, List.filter_cons]
    by_cases hc : ids.contains r.id
    · rw [if_pos hc, if_pos hc, List.foldl_cons, ih]
    · rw [if_neg hc, if_neg hc, ih]

theorem lastRec_filter_contains {α : Type} (recs : List (Rec α)) (ids : List String)
    (k : String) :
    lastRec (recs.filter (fun r => ids.contains r.id)) k
      = if ids.contains k then lastRec recs k else none := by
  induction recs with
  | nil => cases h : ids.contains k <;> simp [lastRec_nil, h]
  | cons r t ih =>
    rw [List.filter_cons]
    by_cases hc : ids.contains r.id
    · rw [if_pos hc, lastRec_cons, lastRec_cons, ih]
      by_cases hk : r.id = k
      · have hck : ids.contains k = true := by rw [← hk]; exact hc
        rw [if_pos hck, if_pos hck]
      · by_cases hck : ids.contains k
        · rw [if_pos hck, if_pos hck]
        · rw [if_neg hck, if_neg hck, if_neg hk]
          rfl
    · rw [if_neg hc, ih, lastRec_cons]
      by_cases hck : ids.contains k
      · rw [if_pos hck, if_pos hck]
        have hk : ¬ r.id = k := by
          intro hh
          rw [hh] at hc
          exact hc hck
        rw [if_neg hk]
        cases hl : lastRec t k <;> simp [Option.or]
      · rw [if_neg hck, if_neg hck]

end Coldbase

namespace Coldbase

theorem jsSlice_id {α : Type} (l : List α) : jsSlice l 0 none = l := by
  simp [jsSlice]

theorem findProj_eq_some {α : Type} (wh : Option (α → Bool)) (p : String × Option α) (x : α) :
    (match p.2 with
     | none => none
     | some d =>
       match wh with
       | some f => if f d then some d else none
       | none => some d) = some x
    ↔ p.2 = some x ∧ ∀ f, wh = some f → f x = true := by
  cases hv : p.2 with
  | none => simp
  | some d =>
    cases wh with
    | none =>
      simp only [Option.some.injEq]
      constructor
      · intro h
        exact ⟨by rw [h], by intro f hf; cases hf⟩
      · intro h
        exact h.1
    | some f =>
      by_cases hf : f d
      · simp only [hf, if_true, Option.some.injEq]
        constructor
        · intro h
          refine ⟨by rw [h], ?_⟩
          intro g hg
          rw [← hg, ← h]
          exact hf
        · intro h
          exact h.1
      · simp only [hf, if_false]
        constructor
        · intro h
          cases h
        · intro h
          exfalso
          have hdx : d = x := by injection h.1
          exact hf (by rw [hdx]; exact h.2 f rfl)

/-- C1 (amended).  The point and predicate reads `get`, `getMany`, `find`
and `count` all dedupe by keeping, for each id, the LAST record in the
order `read()` yields (snapshot lines, then mutation blobs in listing
order) — not the record with the largest `ts`; a tombstone counts as
absent.  When every record carries a `ts` and per id the `ts` values
strictly increase in stream order, this coincides with the spec's
largest-`ts` map. -/
theorem claim1_reads_dedupe_to_last_in_stream_order {α : Type} (st : Store α)
    (k : String) (ids : List String) (wh : Option (α → Bool)) :
    Collection.get st k = ((lastRec (readStream st) k).map Rec.data).join
  ∧ lookupKV (Collection.getMany st ids) k
      = (if ids.contains k then ((lastRec (readStream st) k).map Rec.data).join else none)
  ∧ (∀ x : α, x ∈ Collection.find st wh none 0
      ↔ (∃ j r, lastRec (readStream st) j = some r ∧ r.data = some x)
        ∧ ∀ f, wh = some f → f x = true)
  ∧ Collection.count st = (Collection.find st none none 0).length
  ∧ (tsStrictPerId (readStream st) → specLwwRecord (readStream st) k = lastRec (readStream st) k) := by
  refine ⟨?g1, ?g2, ?g3, ?g4, ?g5⟩
  case g1 =>
    unfold Collection.get
    rw [scanLast_eq_lastRec]
  case g2 =>
    show lookupKV (((readStream st).foldl
        (fun m r => if ids.contains r.id then mapSet m r.id r.data else m) []).filterMap
        (fun p => p.2.map (fun d => (p.1, d)))) k = _
    rw [getMany_fold_eq]
    have hform : ((readStream st).filter (fun r => ids.contains r.id)).foldl
        (fun m r => mapSet m r.id r.data) []
        = latestFold ((readStream st).filter (fun r => ids.contains r.id)) := rfl
    rw [hform, lookupKV_liveProj _ _ (latestFold_keys_nodup _), latestFold_lookup,
      lastRec_filter_contains]
    by_cases hck : ids.contains k
    · rw [if_pos hck, if_pos hck]
    · rw [if_neg hck, if_neg hck]
      rfl
  case g3 =>
    intro x
    show x ∈ jsSlice _ 0 none ↔ _
    rw [jsSlice_id, List.mem_filterMap]
    constructor
    · rintro ⟨p, hp, hfp⟩
      obtain ⟨hv, hpass⟩ := (findProj_eq_some wh p x).mp hfp
      have hl := lookupKV_of_mem _ p (latestFold_keys_nodup _) hp
      rw [latestFold_lookup] at hl
      rcases Option.map_eq_some'.mp hl with ⟨r, hr1, hr2⟩
      exact ⟨⟨p.1, r, hr1, by rw [hr2, hv]⟩, hpass⟩
    · rintro ⟨⟨j, r, hjr, hdata⟩, hpass⟩
      have hl : lookupKV (latestFold (readStream st)) j = some (some x) := by
        rw [latestFold_lookup, hjr]
        simp [hdata]
      exact ⟨(j, some x), mem_of_lookupKV _ _ _ hl,
        (findProj_eq_some wh (j, some x) x).mpr ⟨rfl, hpass⟩⟩
  case g4 =>
    show ((latestFold (readStream st)).filter (fun p => p.2.isSome)).length
      = (jsSlice _ 0 none).length
    rw [jsSlice_id, length_filterMap_eq_length_filter]
    apply congrArg List.length
    apply List.filter_congr
    intro p hp
    cases hv : p.2 <;> simp [hv]
  case g5 =>
    exact fun h => specLww_eq_lastRec _ _ h

/-- Concrete state for the C1 counterexample: two mutation blobs whose
listing order disagrees with their record timestamps. -/
def cexStore1 : Store Nat :=
  ⟨none, [some [⟨"k", some 2, some 200⟩], some [⟨"k", some 1, some 120⟩]],
    none, none, none, none⟩

/-- C1 counterexample: `get` returns the data of the stream-order-last
record (ts 120), not of the record with the largest ts (200), so reads do
NOT resolve an id to the record with the largest ts. -/
theorem claim1_counterexample :
    Collection.get cexStore1 "k" = some 1
  ∧ specLwwRecord (readStream cexStore1) "k" = some ⟨"k", some 2, some 200⟩
  ∧ ((specLwwRecord (readStream cexStore1) "k").map Rec.data).join
      ≠ Collection.get cexStore1 "k" := by
  decide

/-- Concrete state for the C1 witness: snapshot record then a mutation
record with a strictly larger ts. -/
def witStore1 : Store Nat :=
  ⟨some [Line.entry ⟨"a", some 1, some 1⟩], [some [⟨"a", some 2, some 2⟩]],
    none, none, none, none⟩

theorem claim1_witness :
    tsStrictPerId (readStream witStore1)
  ∧ specLwwRecord (readStream witStore1) "a" = lastRec (readStream witStore1) "a" :=
  ⟨by decide,
    (claim1_reads_dedupe_to_last_in_stream_order witStore1 "a" [] none).2.2.2.2 (by decide)⟩

end Coldbase

namespace Coldbase

/-! ### Monotonic timestamps (src/lib/utils.ts) and write stamping -/

/-- `monotonicTimestamp` as a function of the module counter `_lastTs`
and the wall clock: `_lastTs = now > _lastTs ? now : _lastTs + 1`;
returns (result, new counter). -/
def monotonicTimestamp (lastTs now : Nat) : Nat × Nat :=
  let t := if now > lastTs then now else lastTs + 1
  (t, t)

/-- The results of successive `monotonicTimestamp` calls for a sequence
of wall-clock readings (arbitrary: the clock may stall or regress). -/
def monoRun (lastTs : Nat) : List Nat → List Nat
  | [] => []
  | now :: rest =>
    (monotonicTimestamp lastTs now).1 :: monoRun (monotonicTimestamp lastTs now).2 rest

/-- `VectorCollection._writeMutations` stamps every record of a batch
with the wall clock `Date.now()` (src/lib/vector-collection.ts), not
with `monotonicTimestamp`. -/
def VectorCollection.writeBatchTs {α : Type} (now : Nat) (items : List (String × Option α)) :
    List (Rec α) :=
  items.map (fun it => ⟨it.1, it.2, some now⟩)

theorem monoRun_chain (clocks : List Nat) (lastTs : Nat) :
    List.Chain (· < ·) lastTs (monoRun lastTs clocks) := by
  induction clocks generalizing lastTs with
  | nil => exact List.Chain.nil
  | cons now rest ih =>
    have hlt : lastTs < (monotonicTimestamp lastTs now).1 := by
      unfold monotonicTimestamp
      by_cases h : now > lastTs
      · simp [h]
      · simp [h]
    exact List.Chain.cons hlt (ih _)

/-- C5 (amended).  On ordinary collections, sequenced writes are stamped
by `monotonicTimestamp`, whose successive results strictly increase for
every wall-clock behaviour (stalls and regressions included).  Vector
collections, however, stamp records with the raw wall clock, so their
sequenced writes in one millisecond share the same `ts`. -/
theorem claim5_monotonic_timestamps_ordinary_only :
    (∀ (lastTs : Nat) (clocks : List Nat), (monoRun lastTs clocks).Pairwise (· < ·))
  ∧ (∀ (now : Nat) (items : List (String × Option Nat)),
      ∀ r ∈ VectorCollection.writeBatchTs now items, r.ts = some now) := by
  constructor
  · intro lastTs clocks
    exact ((List.chain_iff_pairwise).mp (monoRun_chain clocks lastTs)).of_cons
  · intro now items r hr
    rcases List.mem_map.mp hr with ⟨it, _, heq⟩
    rw [← heq]

/-- C5 counterexample: two sequenced vector-collection writes while the
wall clock reads 5 both receive ts 5 — the later write's ts is not
strictly greater than the earlier one's. -/
theorem claim5_counterexample :
    (VectorCollection.writeBatchTs 5 [("a", some (1 : Nat))]).map Rec.ts = [some 5]
  ∧ (VectorCollection.writeBatchTs 5 [("b", some (2 : Nat))]).map Rec.ts = [some 5]
  ∧ ¬ (5 : Nat) > 5 := by
  decide

/-! ### Lease-based lock acquisition (src/lib/compactor.ts `withLock`) -/

/-- Outcome of one conditional write against the driver:
`PreconditionFailedError` or success with the new etag. -/
inductive PutOutcome where
  | ok (etag : String)
  | precondFailed
deriving DecidableEq, Repr

/-- The parsed body of an existing `C.lock` blob.  `expiresAt = none`
models a parsed JSON object without that field. -/
structure LockMeta where
  sessionId : String
  expiresAt : Option Nat
deriving DecidableEq, Repr

/-- The driver responses one `acquireLock` run can observe, in program
order: the initial `putIfNoneMatch`, the `get` of the lock blob, the
retry `putIfNoneMatch` (lock vanished), the takeover `putIfMatch`. -/
structure LockScenario where
  now : Nat
  firstPut : PutOutcome
  getLock : Option (LockMeta × String)
  secondPut : PutOutcome
  takeoverPut : PutOutcome
deriving DecidableEq, Repr

inductive AcquireResult where
  | acquired (etag : String)
  | lockActive
  | precondFailed
deriving DecidableEq, Repr

/-- `acquireLock` (src/lib/compactor.ts, lines 69-90). -/
def acquireLock (sc : LockScenario) : AcquireResult :=
  match sc.firstPut with
  | .ok e => .acquired e
  | .precondFailed =>
    match sc.getLock with
    | none =>
      match sc.secondPut with
      | .ok e => .acquired e
      | .precondFailed => .precondFailed
    | some (meta, _) =>
      match meta.expiresAt with
      | some exp =>
        if sc.now > exp then
          match sc.takeoverPut with
          | .ok e => .acquired e
          | .precondFailed => .precondFailed
        else .lockActive
      | none => .lockActive

/-- C4 (amended).  When the held lock is expired, the acquirer attempts
`putIfMatch` with the old version exactly once: success acquires the
lock by takeover; a conditional-write failure surfaces as
`PreconditionFailedError` — not `LockActiveError` — with no retry. -/
theorem claim4_expired_takeover_surfaces_precondition (sc : LockScenario)
    (meta : LockMeta) (etag : String) (exp : Nat)
    (h1 : sc.firstPut = .precondFailed) (h2 : sc.getLock = some (meta, etag))
    (h3 : meta.expiresAt = some exp) (h4 : sc.now > exp) :
    (∀ e, sc.takeoverPut = .ok e → acquireLock sc = .acquired e)
  ∧ (sc.takeoverPut = .precondFailed → acquireLock sc = .precondFailed) := by
  constructor
  · intro e he
    simp [acquireLock, h1, h2, h3, h4, he]
  · intro he
    simp [acquireLock, h1, h2, h3, h4, he]

/-- C4 counterexample: expired lock (`expiresAt = 10 < now = 11`), the
takeover `putIfMatch` hits a version conflict — the operation fails with
`PreconditionFailedError`, not `LockActiveError` as the claim states. -/
theorem claim4_counterexample :
    acquireLock ⟨11, .precondFailed, some (⟨"s", some 10⟩, "e0"), .precondFailed, .precondFailed⟩
      = .precondFailed
  ∧ AcquireResult.precondFailed ≠ AcquireResult.lockActive := by
  decide

def witScenario4 : LockScenario :=
  ⟨20, .precondFailed, some (⟨"s", some 10⟩, "e0"), .precondFailed, .ok "e1"⟩

theorem claim4_witness :
    witScenario4.now > 10 ∧ acquireLock witScenario4 = .acquired "e1" :=
  ⟨by decide,
    (claim4_expired_takeover_surfaces_precondition witScenario4 ⟨"s", some 10⟩ "e0" 10
      rfl rfl rfl (by decide)).1 "e1" rfl⟩

/-! ### Lock lease duration (src/lib/compactor.ts `lockMeta`, src/lib/types.ts) -/

/-- The lease-related fields of `DEFAULT_CONFIG` (src/lib/types.ts).
`leasePerByte` is the float literal 0.00003, represented exactly. -/
structure LeaseConfig where
  leaseDurationMs : ℚ
  adaptiveLease : Bool
  leasePerByte : ℚ
  leasePerMutation : ℚ
  maxLeaseDurationMs : ℚ
deriving DecidableEq

def DEFAULT_LEASE_CONFIG : LeaseConfig :=
  { leaseDurationMs := 30000
    adaptiveLease := true
    leasePerByte := 3 / 100000
    leasePerMutation := 200
    maxLeaseDurationMs := 600000 }

/-- src/lib/compactor.ts `lockMeta` (lines 50-55): the `expiresAt`
written into the lock blob is `expiresAt ?? (Date.now() +
this.config.leaseDurationMs)`.  The compactor's constructor (lines
37-43) retains only `leaseDurationMs` from the configuration, so the
adaptive fields never reach it and both compaction and vacuum use this
same plain lease. -/
def lockMetaExpiresAt (cfg : LeaseConfig) (now : ℚ) (forced : Option ℚ) : ℚ :=
  forced.getD (now + cfg.leaseDurationMs)

/-- Modelled from the spec: `adaptiveLease = min(maxLeaseDurationMs,
leaseDurationMs + fileSize·leasePerByte + mutationCount·leasePerMutation)`
when adaptive lease is enabled, otherwise `leaseDurationMs` (§4.1 step 1).
The computation is documented in src/lib/types.ts but implemented
nowhere under src/. -/
def specAdaptiveLease (cfg : LeaseConfig) (fileSize mutationCount : ℚ) : ℚ :=
  if cfg.adaptiveLease then
    min cfg.maxLeaseDurationMs
      (cfg.leaseDurationMs + fileSize * cfg.leasePerByte + mutationCount * cfg.leasePerMutation)
  else cfg.leaseDurationMs

/-- C6 (code bug).  With the default configuration (adaptive lease
enabled, as documented in src/lib/types.ts) the lock blob written at
`now = 1000` with file size 0 and 10 pending mutations carries the plain
30000 ms lease, while the documented adaptive lease is 32000 ms. -/
theorem claim6_adaptive_lease_not_implemented :
    lockMetaExpiresAt DEFAULT_LEASE_CONFIG 1000 none = 31000
  ∧ DEFAULT_LEASE_CONFIG.adaptiveLease = true
  ∧ specAdaptiveLease DEFAULT_LEASE_CONFIG 0 10 = 32000
  ∧ lockMetaExpiresAt DEFAULT_LEASE_CONFIG 1000 none - 1000
      ≠ specAdaptiveLease DEFAULT_LEASE_CONFIG 0 10 := by
  refine ⟨?_, rfl, ?_, ?_⟩ <;>
    norm_num [lockMetaExpiresAt, specAdaptiveLease, DEFAULT_LEASE_CONFIG, min_def, Option.getD]

end Coldbase

namespace Coldbase

/-! ### Mutation writes and the size limit (src/lib/db.ts `_writeMutations`)

`JSON.stringify` modelled for the mutation payload shape
`[[id, data, ts], ...]` with `data` a flat JSON object of scalar fields
or `null` (nesting of caller objects is orthogonal to the size check). -/

inductive Scalar where
  | null
  | bool (b : Bool)
  | num (n : Int)
  | str (s : String)
deriving DecidableEq, Repr

/-- A caller-owned data object: ordered fields of scalars. -/
structure JObj where
  fields : List (String × Scalar)
deriving DecidableEq, Repr

def hexDigit (n : Nat) : Char :=
  if n < 10 then Char.ofNat (48 + n) else Char.ofNat (87 + n)

/-- One character of a JSON string literal, as `JSON.stringify` emits it. -/
def escChar (c : Char) : String :=
  if c = '"' then "\\\""
  else if c = '\\' then "\\\\"
  else if c = '\n' then "\\n"
  else if c = '\r' then "\\r"
  else if c = '\t' then "\\t"
  else if c = Char.ofNat 8 then "\\b"
  else if c = Char.ofNat 12 then "\\f"
  else if c.toNat < 32 then
    "\\u00" ++ String.mk [hexDigit (c.toNat / 16), hexDigit (c.toNat % 16)]
  else String.singleton c

def encodeString (s : String) : String :=
  "\"" ++ String.join (s.data.map escChar) ++ "\""

def encodeScalar : Scalar → String
  | .null => "null"
  | .bool true => "true"
  | .bool false => "false"
  | .num n => toString n
  | .str s => encodeString s

def encodeObj (o : JObj) : String :=
  "\x7b" ++ String.intercalate ","
    (o.fields.map (fun p => encodeString p.1 ++ ":" ++ encodeScalar p.2)) ++ "\x7d"

def encodeData : Option JObj → String
  | none => "null"
  | some o => encodeObj o

def encodeRecordLine (id : String) (d : Option JObj) (ts : Nat) : String :=
  "[" ++ encodeString id ++ "," ++ encodeData d ++ "," ++ toString ts ++ "]"

/-- `JSON.stringify(items.map(({id, data}) => [id, data, now]))`. -/
def encodeMutationPayload (items : List (String × Option JObj)) (ts : Nat) : String :=
  "[" ++ String.intercalate "," (items.map (fun it => encodeRecordLine it.1 it.2 ts)) ++ "]"

inductive WriteError where
  | sizeLimit
deriving DecidableEq, Repr

/-- `Collection._writeMutations` (src/lib/db.ts, lines 198-230): stamp
the batch with one `monotonicTimestamp()` call, encode, fail with
`SizeLimitError` when the encoding exceeds `maxMutationSize` — before
any storage operation — otherwise store one mutation blob (whose key
timestamp comes from a second `monotonicTimestamp()` call; the uuid does
not affect the model).  Returns (error?, storage, new counter). -/
def Collection.writeMutations (maxMutationSize : Nat) (st : Store JObj) (lastTs now1 now2 : Nat)
    (items : List (String × Option JObj)) : Option WriteError × Store JObj × Nat :=
  let res1 := monotonicTimestamp lastTs now1
  let json := encodeMutationPayload items res1.1
  if json.length > maxMutationSize then
    (some .sizeLimit, st, res1.2)
  else
    let res2 := monotonicTimestamp res1.2 now2
    (none,
      { st with muts := st.muts ++ [some (items.map (fun it => ⟨it.1, it.2, some res1.1⟩))] },
      res2.2)

/-- `Collection.put(data)` funnels into `_writeMutations([{id, data}])`. -/
def Collection.putW (maxMutationSize : Nat) (st : Store JObj) (lastTs now1 now2 : Nat)
    (id : String) (d : JObj) : Option WriteError × Store JObj × Nat :=
  Collection.writeMutations maxMutationSize st lastTs now1 now2 [(id, some d)]

/-- `Collection.delete(id)` funnels into `_writeMutations([{id, data: null}])`. -/
def Collection.deleteW (maxMutationSize : Nat) (st : Store JObj) (lastTs now1 now2 : Nat)
    (id : String) : Option WriteError × Store JObj × Nat :=
  Collection.writeMutations maxMutationSize st lastTs now1 now2 [(id, none)]

/-- C7.  Whenever the JSON-encoded mutation payload exceeds
`maxMutationSize`, `_writeMutations` (hence `put`, `delete` and `batch`,
which all funnel into it) fails with `SizeLimitError` and the storage
state is byte-for-byte the input storage state: no blob was written. -/
theorem claim7_size_limit_error_leaves_storage_unchanged
    (maxMutationSize : Nat) (st : Store JObj) (lastTs now1 now2 : Nat)
    (items : List (String × Option JObj))
    (h : (encodeMutationPayload items (monotonicTimestamp lastTs now1).1).length
          > maxMutationSize) :
    (Collection.writeMutations maxMutationSize st lastTs now1 now2 items).1
        = some WriteError.sizeLimit
  ∧ (Collection.writeMutations maxMutationSize st lastTs now1 now2 items).2.1 = st
  ∧ (∀ id d, Collection.putW maxMutationSize st lastTs now1 now2 id d
      = Collection.writeMutations maxMutationSize st lastTs now1 now2 [(id, some d)])
  ∧ (∀ id, Collection.deleteW maxMutationSize st lastTs now1 now2 id
      = Collection.writeMutations maxMutationSize st lastTs now1 now2 [(id, none)]) := by
  refine ⟨?_, ?_, fun id d => rfl, fun id => rfl⟩ <;>
    simp only [Collection.writeMutations, if_pos h]

def witStore7 : Store JObj := ⟨none, [], none, none, none, none⟩

theorem claim7_witness :
    (encodeMutationPayload [("a", none)] (monotonicTimestamp 0 5).1).length > 3
  ∧ (Collection.writeMutations 3 witStore7 0 5 6 [("a", none)]).1
      = some WriteError.sizeLimit
  ∧ (Collection.writeMutations 3 witStore7 0 5 6 [("a", none)]).2.1 = witStore7 :=
  ⟨by decide,
    (claim7_size_limit_error_leaves_storage_unchanged 3 witStore7 0 5 6 [("a", none)]
      (by decide)).1,
    (claim7_size_limit_error_leaves_storage_unchanged 3 witStore7 0 5 6 [("a", none)]
      (by decide)).2.1⟩

end Coldbase

namespace Coldbase

/-! ### LRUCache (src/lib/utils.ts, lines 192-239)

The backing JS `Map` is the insertion-ordered association list; the
first entry is the oldest. -/

def eraseKey {V : Type} : List (String × V) → String → List (String × V)
  | [], _ => []
  | e :: t, k => if e.1 = k then t else e :: eraseKey t k

structure LRU (V : Type) where
  maxSize : Nat
  entries : List (String × V)
deriving DecidableEq, Repr

def LRU.hasKey {V : Type} (c : LRU V) (k : String) : Bool :=
  (c.entries.find? (fun p => p.1 == k)).isSome

def LRU.size {V : Type} (c : LRU V) : Nat := c.entries.length

/-- `entries().next().value?.[0]`: the key of the first (oldest) entry. -/
def LRU.firstKey {V : Type} (c : LRU V) : Option String :=
  c.entries.head?.map Prod.fst

/-- `set`: delete the key if present, else evict the oldest entry when
full, then insert at the end (most recently used). -/
def LRU.set {V : Type} (c : LRU V) (k : String) (v : V) : LRU V :=
  let d :=
    if c.hasKey k then eraseKey c.entries k
    else if c.entries.length ≥ c.maxSize then
      match c.entries.head? with
      | some e => eraseKey c.entries e.1
      | none => c.entries
    else c.entries
  { c with entries := d ++ [(k, v)] }

/-- `get`: on a hit, move the entry to the end (most recently used). -/
def LRU.get {V : Type} (c : LRU V) (k : String) : Option V × LRU V :=
  match lookupKV c.entries k with
  | some v => (some v, { c with entries := eraseKey c.entries k ++ [(k, v)] })
  | none => (none, c)

def LRU.del {V : Type} (c : LRU V) (k : String) : LRU V :=
  { c with entries := eraseKey c.entries k }

def LRU.clear {V : Type} (c : LRU V) : LRU V := { c with entries := [] }

inductive LRUOp (V : Type) where
  | get (k : String)
  | set (k : String) (v : V)
  | del (k : String)
  | clear
deriving DecidableEq, Repr

def LRU.apply {V : Type} (c : LRU V) : LRUOp V → LRU V
  | .get k => (c.get k).2
  | .set k v => c.set k v
  | .del k => c.del k
  | .clear => c.clear

/-- A fresh `new LRUCache(maxSize)` driven through a sequence of
operations. -/
def LRU.run {V : Type} (maxSize : Nat) (ops : List (LRUOp V)) : LRU V :=
  ops.foldl LRU.apply ⟨maxSize, []⟩

theorem eraseKey_length_le {V : Type} (l : List (String × V)) (k : String) :
    (eraseKey l k).length ≤ l.length := by
  induction l with
  | nil => simp [eraseKey]
  | cons e t ih =>
    by_cases h : e.1 = k
    · simp [eraseKey, h]
    · simp only [eraseKey, if_neg h, List.length_cons]
      omega

theorem eraseKey_length_of_found {V : Type} (l : List (String × V)) (k : String)
    (h : (l.find? (fun p => p.1 == k)).isSome) :
    (eraseKey l k).length + 1 = l.length := by
  induction l with
  | nil => simp [List.find?] at h
  | cons e t ih =>
    by_cases he : e.1 = k
    · simp [eraseKey, he]
    · have hb : (e.1 == k) = false := by simpa using he
      rw [List.find?_cons, hb] at h
      simp only [eraseKey, if_neg he, List.length_cons]
      rw [← ih h]

theorem LRU.apply_maxSize {V : Type} (c : LRU V) (op : LRUOp V) :
    (c.apply op).maxSize = c.maxSize := by
  cases op with
  | get k =>
    show (c.get k).2.maxSize = c.maxSize
    unfold LRU.get
    cases lookupKV c.entries k <;> rfl
  | set k v => rfl
  | del k => rfl
  | clear => rfl

theorem LRU.apply_size_le {V : Type} (c : LRU V) (op : LRUOp V)
    (hmax : 1 ≤ c.maxSize) (hle : c.entries.length ≤ c.maxSize) :
    (c.apply op).entries.length ≤ c.maxSize := by
  cases op with
  | get k =>
    show (c.get k).2.entries.length ≤ c.maxSize
    unfold LRU.get
    cases hv : lookupKV c.entries k with
    | none => exact hle
    | some v =>
      simp only []
      rw [List.length_append, List.length_singleton]
      have hfound : (c.entries.find? (fun p => p.1 == k)).isSome := by
        unfold lookupKV at hv
        cases hf : c.entries.find? (fun p => p.1 == k) with
        | none => rw [hf] at hv; cases hv
        | some e => simp
      have := eraseKey_length_of_found c.entries k hfound
      omega
  | set k v =>
    show (c.set k v).entries.length ≤ c.maxSize
    unfold LRU.set
    by_cases hhas : c.hasKey k
    · rw [if_pos hhas]
      rw [List.length_append, List.length_singleton]
      have hfound : (c.entries.find? (fun p => p.1 == k)).isSome := hhas
      have := eraseKey_length_of_found c.entries k hfound
      omega
    · rw [if_neg hhas]
      by_cases hfull : c.entries.length ≥ c.maxSize
      · rw [if_pos hfull]
        cases hent : c.entries with
        | nil =>
          rw [hent] at hfull
          simp only [List.length_nil] at hfull
          omega
        | cons e t =>
          simp only [List.head?_cons]
          rw [List.length_append, List.length_singleton]
          have herase : eraseKey (e :: t) e.1 = t := by simp [eraseKey]
          rw [herase]
          rw [hent] at hle
          simp only [List.length_cons] at hle
          omega
      · rw [if_neg hfull]
        rw [List.length_append, List.length_singleton]
        omega
  | del k =>
    show (eraseKey c.entries k).length ≤ c.maxSize
    exact le_trans (eraseKey_length_le _ _) hle
  | clear =>
    show (0 : Nat) ≤ c.maxSize
    omega

theorem LRU.foldl_maxSize {V : Type} (ops : List (LRUOp V)) (c : LRU V) :
    (ops.foldl LRU.apply c).maxSize = c.maxSize := by
  induction ops generalizing c with
  | nil => rfl
  | cons op rest ih =>
    rw [List.foldl_cons, ih, LRU.apply_maxSize]

theorem LRU.run_go_size {V : Type} (ops : List (LRUOp V)) (c : LRU V)
    (hmax : 1 ≤ c.maxSize) (hle : c.entries.length ≤ c.maxSize) :
    (ops.foldl LRU.apply c).entries.length ≤ c.maxSize := by
  induction ops generalizing c with
  | nil => exact hle
  | cons op rest ih =>
    rw [List.foldl_cons]
    have h1 : 1 ≤ (c.apply op).maxSize := by rw [LRU.apply_maxSize]; exact hmax
    have h2 : (c.apply op).entries.length ≤ (c.apply op).maxSize := by
      rw [LRU.apply_maxSize]
      exact LRU.apply_size_le c op hmax hle
    have := ih (c.apply op) h1 h2
    rw [LRU.apply_maxSize] at this
    exact this

/-- C9.  For an LRUCache with `maxSize = m ≥ 1`, (1) the size never
exceeds `m` under any sequence of get/set/delete/clear starting from the
fresh cache; (2) `set` of a fresh key into a full cache evicts exactly
the oldest entry (the head of the insertion-ordered map) and appends the
new entry at the end; (3) `get` of a present key refreshes its recency
by moving it to the end. -/
theorem claim9_lru_bounded_and_evicts_oldest {V : Type} (m : Nat) (ops : List (LRUOp V))
    (c : LRU V) (k : String) (v : V) (hm : 1 ≤ m) :
    (LRU.run m ops).entries.length ≤ m
  ∧ (c.hasKey k = false → c.entries.length = c.maxSize → 1 ≤ c.maxSize →
      (c.set k v).entries = c.entries.tail ++ [(k, v)])
  ∧ (lookupKV c.entries k = some v →
      (c.get k).2.entries = eraseKey c.entries k ++ [(k, v)]) := by
  refine ⟨?_, ?_, ?_⟩
  · exact LRU.run_go_size ops (⟨m, []⟩ : LRU V) hm (by simp)
  · intro hhas hfullv hmaxc
    unfold LRU.set
    rw [if_neg (by simp [hhas]), if_pos hfullv.ge]
    cases hent : c.entries with
    | nil =>
      rw [hent] at hfullv
      simp only [List.length_nil] at hfullv
      omega
    | cons e t =>
      simp only [List.head?_cons, List.tail_cons]
      have herase : eraseKey (e :: t) e.1 = t := by simp [eraseKey]
      rw [herase]
  · intro hv
    unfold LRU.get
    rw [hv]

end Coldbase

namespace Coldbase

def witCache9 : LRU Nat := ⟨2, [("a", 1), ("b", 2)]⟩

def witOps9 : List (LRUOp Nat) := [.set "a" 1, .set "b" 2, .get "a", .set "c" 3]

theorem claim9_witness :
    (1 : Nat) ≤ 2
  ∧ witCache9.hasKey "c" = false
  ∧ witCache9.entries.length = witCache9.maxSize
  ∧ lookupKV witCache9.entries "a" = some 1
  ∧ (LRU.run 2 witOps9).entries.length ≤ 2
  ∧ (witCache9.set "c" 3).entries = witCache9.entries.tail ++ [("c", 3)]
  ∧ (witCache9.get "a").2.entries = eraseKey witCache9.entries "a" ++ [("a", 1)] :=
  ⟨by decide, by decide, by decide, by decide,
    (claim9_lru_bounded_and_evicts_oldest 2 witOps9 witCache9 "c" 3 (by decide)).1,
    (claim9_lru_bounded_and_evicts_oldest 2 witOps9 witCache9 "c" 3 (by decide)).2.1
      (by decide) (by decide) (by decide),
    (claim9_lru_bounded_and_evicts_oldest 2 witOps9 witCache9 "a" 1 (by decide)).2.2
      (by decide)⟩

/-! ### Compactor (src/lib/compactor.ts) -/

/-- The compactor configuration retained by the constructor (lines
37-43) plus whether a bloom filter is configured. -/
structure CompactorCfg where
  useBloomFilter : Bool
  vacuumCacheSize : Nat
  leaseDurationMs : Nat
deriving DecidableEq, Repr

/-- `buildBloomFilterAndIndex` (lines 209-264): one pass over `C.jsonl`;
the insertion-ordered index map records, per id, the position of its
last line and whether it is a tombstone; `C.idx` then keeps the
non-tombstoned entries, and `C.bloom` (when configured) the same ids. -/
def buildIndexPairs {α : Type} (lines : List (Line α)) : List (String × (Nat × Bool)) :=
  (lines.enumFrom 1).foldl (fun m p =>
    match lineRec p.2 with
    | some r => mapSet m r.id (p.1, r.data.isNone)
    | none => m) []

def buildIndexEntries {α : Type} (lines : List (Line α)) : List (String × Nat) :=
  ((buildIndexPairs lines).filter (fun p => !p.2.2)).map (fun p => (p.1, p.2.1))

def liveIds {α : Type} (lines : List (Line α)) : List String :=
  (buildIndexEntries lines).map Prod.fst

/-- Index and bloom outputs of the rebuild for a given resulting
snapshot (`get` of an absent snapshot skips the rebuild). -/
def rebuildMeta {α : Type} (cfg : CompactorCfg) (main : Option (List (Line α)))
    (idx0 : Option (List (String × Nat))) (bloom0 : Option (List String)) :
    Option (List (String × Nat)) × Option (List String) :=
  match main with
  | none => (idx0, bloom0)
  | some lines =>
    (some (buildIndexEntries lines),
      if cfg.useBloomFilter then some (liveIds lines) else bloom0)

/-- `compact` (lines 111-203) with no concurrent writers: under the
lock (acquired, then released by rewriting `C.lock` with `expiresAt 0`),
list all mutation blobs, append every record of the well-formed ones to
`C.jsonl` in listing order (buffered appends do not change the resulting
content), delete the processed blobs; a second listing pass observes no
mutations and the loop exits; rebuild index and bloom.  Returns
(mutationsProcessed, resulting storage). -/
def compactFull {α : Type} (cfg : CompactorCfg) (st : Store α) : Nat × Store α :=
  let recs := (st.muts.filterMap (fun b => b)).flatten
  let appended := if recs.isEmpty then st.main
                  else some (st.main.getD [] ++ recs.map Line.entry)
  let meta := rebuildMeta cfg appended st.idx st.bloom
  (recs.length,
    { main := appended, muts := [], tmp := st.tmp, idx := meta.1, bloom := meta.2,
      lock := some 0 })

theorem filterMap_lineRec_map_entry {α : Type} (recs : List (Rec α)) :
    (recs.map Line.entry).filterMap lineRec = recs := by
  induction recs with
  | nil => rfl
  | cons r t ih => simp [lineRec, ih]

/-- C3.  After `compact` terminates (no concurrent writers), no mutation
blob remains, the read stream is unchanged — the appended snapshot lines
are exactly the records the deleted mutation blobs contributed, in the
same order — and hence every `get` is unchanged. -/
theorem claim3_compact_drains_mutations_preserving_reads {α : Type}
    (cfg : CompactorCfg) (st : Store α) :
    (compactFull cfg st).2.muts = []
  ∧ readStream (compactFull cfg st).2 = readStream st
  ∧ (∀ k, Collection.get (compactFull cfg st).2 k = Collection.get st k) := by
  have hread : readStream (compactFull cfg st).2 = readStream st := by
    unfold readStream
    have hmain : (compactFull cfg st).2.main
        = (if ((st.muts.filterMap (fun b => b)).flatten : List (Rec α)).isEmpty then st.main
           else some (st.main.getD []
             ++ ((st.muts.filterMap (fun b => b)).flatten).map Line.entry)) := rfl
    have hmu : (compactFull cfg st).2.muts = [] := rfl
    rw [hmain, hmu]
    by_cases hempty : ((st.muts.filterMap (fun b => b)).flatten : List (Rec α)).isEmpty
    · rw [if_pos hempty, List.isEmpty_iff.mp hempty]
      simp
    · rw [if_neg hempty]
      simp only [Option.getD_some]
      rw [List.filterMap_append, filterMap_lineRec_map_entry]
      simp
  exact ⟨rfl, hread, fun k => by unfold Collection.get; rw [hread]⟩

/-! ### Vacuum (src/lib/compactor.ts, lines 279-420) -/

/-- The overflow-set update performed before a `tracker.set` that would
evict: when a fresh id meets a full cache, the oldest id — if JS-truthy,
i.e. nonempty — is added to the overflow set (a JS `Set`: deduplicating,
insertion-ordered). -/
def overflowUpdate (tr : LRU (Nat × Bool)) (cacheSize : Nat) (id : String)
    (ov : List String) : List String :=
  if ¬ tr.hasKey id ∧ tr.size ≥ cacheSize then
    match tr.firstKey with
    | some k0 => if k0 ≠ "" then (if ov.contains k0 then ov else ov ++ [k0]) else ov
    | none => ov
  else ov

/-- Pass 1 (lines 312-332): stream the snapshot, tracking in the LRU the
last line number and tombstone flag per id; when a fresh id arrives with
the cache full, the to-be-evicted oldest id (JS-truthy, i.e. nonempty)
is added to the overflow set before the `set` evicts it.  `lineNum` is
incremented before each line is processed, so the first line is 1. -/
def vacuumPass1Go {α : Type} (cacheSize : Nat) :
    List (Line α) → Nat → LRU (Nat × Bool) → List String → LRU (Nat × Bool) × List String
  | [], _, tr, ov => (tr, ov)
  | l :: ls, n, tr, ov =>
    match lineRec l with
    | none => vacuumPass1Go cacheSize ls (n + 1) tr ov
    | some r =>
      vacuumPass1Go cacheSize ls (n + 1) (tr.set r.id (n + 1, r.data.isNone))
        (overflowUpdate tr cacheSize r.id ov)

def vacuumPass1 {α : Type} (cacheSize : Nat) (lines : List (Line α)) :
    LRU (Nat × Bool) × List String :=
  vacuumPass1Go cacheSize lines 0 ⟨cacheSize, []⟩ []

/-- Pass 2 (lines 355-386): keep a line iff its id overflowed and it is
not a tombstone, or it is the tracked last occurrence of a
non-tombstoned id.  (The `tracker.get` recency side effect does not
change lookups, so the tracker is read purely here.) -/
def vacuumPass2Go {α : Type} (tr : LRU (Nat × Bool)) (ov : List String) :
    List (Line α) → Nat → List (Line α)
  | [], _ => []
  | l :: ls, n =>
    match lineRec l with
    | none => vacuumPass2Go tr ov ls (n + 1)
    | some r =>
      let keep : Bool :=
        if ov.contains r.id then !r.data.isNone
        else
          match lookupKV tr.entries r.id with
          | some e => decide (e.1 = n + 1) && !e.2
          | none => false
      if keep then l :: vacuumPass2Go tr ov ls (n + 1) else vacuumPass2Go tr ov ls (n + 1)

/-- Both passes; returns (kept lines, recordsRemoved, overflow ids). -/
def vacuumCore {α : Type} (cacheSize : Nat) (lines : List (Line α)) :
    List (Line α) × Nat × List String :=
  let p1 := vacuumPass1 cacheSize lines
  let kept := vacuumPass2Go p1.1 p1.2 lines 0
  (kept, lines.length - kept.length, p1.2)

/-- `vacuum` (lines 279-420) with no concurrent writers: under the lock,
return immediately when `C.jsonl` is absent or has size 0; otherwise
clear and fill `C.jsonl.tmp` with the kept lines, swap it into
`C.jsonl`, delete the temp blob and rebuild index and bloom.  Returns
(recordsRemoved, resulting storage). -/
def vacuumFull {α : Type} (cfg : CompactorCfg) (st : Store α) : Nat × Store α :=
  match st.main with
  | none => (0, { st with lock := some 0 })
  | some lines =>
    if lines.isEmpty then (0, { st with lock := some 0 })
    else
      let core := vacuumCore cfg.vacuumCacheSize lines
      let meta := rebuildMeta cfg (some core.1) st.idx st.bloom
      (core.2.1,
        { main := some core.1, muts := st.muts, tmp := none, idx := meta.1,
          bloom := meta.2, lock := some 0 })

/-- C10.  When `C.jsonl` is absent or empty, `vacuum` returns
`recordsRemoved = 0` and, apart from writing and releasing `C.lock`,
leaves every blob untouched: same snapshot, no `C.jsonl.tmp` created,
no index or bloom rebuild, mutations untouched. -/
theorem claim10_vacuum_empty_snapshot_frame {α : Type} (cfg : CompactorCfg)
    (st : Store α) (h : st.main = none ∨ st.main = some []) :
    (vacuumFull cfg st).1 = 0
  ∧ (vacuumFull cfg st).2.main = st.main
  ∧ (vacuumFull cfg st).2.tmp = st.tmp
  ∧ (vacuumFull cfg st).2.idx = st.idx
  ∧ (vacuumFull cfg st).2.bloom = st.bloom
  ∧ (vacuumFull cfg st).2.muts = st.muts := by
  rcases h with h | h <;> simp [vacuumFull, h]

def witStore10 : Store Nat :=
  ⟨some [], [some [⟨"a", some 1, some 1⟩]], none, some [("a", 0)], some ["a"], none⟩

theorem claim10_witness :
    (witStore10.main = none ∨ witStore10.main = some [])
  ∧ (vacuumFull ⟨false, 1, 30000⟩ witStore10).1 = 0
  ∧ (vacuumFull ⟨false, 1, 30000⟩ witStore10).2.idx = witStore10.idx :=
  ⟨Or.inr rfl,
    (claim10_vacuum_empty_snapshot_frame ⟨false, 1, 30000⟩ witStore10 (Or.inr rfl)).1,
    (claim10_vacuum_empty_snapshot_frame ⟨false, 1, 30000⟩ witStore10 (Or.inr rfl)).2.2.2.1⟩

end Coldbase

namespace Coldbase

/-! ### Vacuum pass correctness (toward C2) -/

/-- The intended content of the pass-1 tracker: for each id, the
position (lineNum) of its last parsed occurrence and whether that
occurrence is a tombstone.  Positions count from `n + 1`. -/
def specTrack {α : Type} : List (Line α) → Nat → String → Option (Nat × Bool)
  | [], _, _ => none
  | l :: ls, n, k =>
    match specTrack ls (n + 1) k with
    | some e => some e
    | none =>
      match lineRec l with
      | some r => if r.id = k then some (n + 1, r.data.isNone) else none
      | none => none

theorem specTrack_lastRec {α : Type} (ls : List (Line α)) (n : Nat) (k : String) :
    (specTrack ls n k = none ↔ lastRec (ls.filterMap lineRec) k = none)
  ∧ (∀ j b, specTrack ls n k = some (j, b) →
      n + 1 ≤ j ∧ j ≤ n + ls.length
      ∧ ∃ r, lastRec (ls.filterMap lineRec) k = some r ∧ r.data.isNone = b) := by
  induction ls generalizing n with
  | nil =>
    refine ⟨by simp [specTrack, lastRec_nil], ?_⟩
    intro j b h
    cases h
  | cons l t ih =>
    rcases ih (n + 1) with ⟨ih0, ih1⟩
    cases hl : lineRec l with
    | none =>
      have hfm : (l :: t).filterMap lineRec = t.filterMap lineRec := by
        rw [List.filterMap_cons, hl]
      have hspec : specTrack (l :: t) n k
          = match specTrack t (n + 1) k with
            | some e => some e
            | none => none := by
        show (match specTrack t (n + 1) k with
          | some e => some e
          | none => match lineRec l with
            | some r => if r.id = k then some (n + 1, r.data.isNone) else none
            | none => none) = _
        rw [hl]
      constructor
      · rw [hfm, hspec]
        cases hs : specTrack t (n + 1) k with
        | none => simpa [hs] using ih0
        | some e =>
          simp only []
          constructor
          · intro h; cases h
          · intro h
            exfalso
            have := ih0.mpr h
            rw [hs] at this
            cases this
      · intro j b h
        rw [hspec] at h
        cases hs : specTrack t (n + 1) k with
        | none => rw [hs] at h; cases h
        | some e =>
          rw [hs] at h
          have he : e = (j, b) := by injection h
          rcases ih1 j b (by rw [hs, he]) with ⟨h1, h2, h3⟩
          refine ⟨by omega, by simp only [List.length_cons]; omega, ?_⟩
          rw [hfm]
          exact h3
    | some r =>
      have hfm : (l :: t).filterMap lineRec = r :: t.filterMap lineRec := by
        rw [List.filterMap_cons, hl]
      have hspec : specTrack (l :: t) n k
          = match specTrack t (n + 1) k with
            | some e => some e
            | none => if r.id = k then some (n + 1, r.data.isNone) else none := by
        show (match specTrack t (n + 1) k with
          | some e => some e
          | none => match lineRec l with
            | some r => if r.id = k then some (n + 1, r.data.isNone) else none
            | none => none) = _
        rw [hl]
      have hlast : lastRec ((l :: t).filterMap lineRec) k
          = (lastRec (t.filterMap lineRec) k).or (if r.id = k then some r else none) := by
        rw [hfm, lastRec_cons]
      constructor
      · rw [hspec, hlast]
        cases hs : specTrack t (n + 1) k with
        | some e =>
          simp only []
          constructor
          · intro h; cases h
          · intro h
            exfalso
            cases ht : lastRec (t.filterMap lineRec) k with
            | some r2 => rw [ht] at h; simp [Option.or] at h
            | none =>
              have := ih0.mpr ht
              rw [hs] at this
              cases this
        | none =>
          have ht : lastRec (t.filterMap lineRec) k = none := ih0.mp hs
          rw [ht]
          simp only [Option.or]
          by_cases hid : r.id = k
          · rw [if_pos hid, if_pos hid]
            constructor
            · intro h; cases h
            · intro h; cases h
          · rw [if_neg hid, if_neg hid]
            simp
      · intro j b h
        rw [hspec] at h
        rw [hlast]
        cases hs : specTrack t (n + 1) k with
        | some e =>
          rw [hs] at h
          have he : e = (j, b) := by injection h
          rcases ih1 j b (by rw [hs, he]) with ⟨h1, h2, h3⟩
          rcases h3 with ⟨r2, hr2, hb2⟩
          refine ⟨by omega, by simp only [List.length_cons]; omega, ?_⟩
          rw [hr2]
          exact ⟨r2, rfl, hb2⟩
        | none =>
          rw [hs] at h
          by_cases hid : r.id = k
          · rw [if_pos hid] at h
            have hjb : j = n + 1 ∧ b = r.data.isNone := by
              constructor <;> injection h with h1 <;> simp_all
            have ht : lastRec (t.filterMap lineRec) k = none := ih0.mp hs
            rw [ht]
            refine ⟨by omega, by simp only [List.length_cons]; omega, ?_⟩
            rw [if_pos hid]
            exact ⟨r, rfl, hjb.2.symm⟩
          · rw [if_neg hid] at h
            cases h

end Coldbase

namespace Coldbase

theorem hasKey_eq_isSome {V : Type} (c : LRU V) (k : String) :
    c.hasKey k = (lookupKV c.entries k).isSome := by
  unfold LRU.hasKey lookupKV
  cases c.entries.find? (fun p => p.1 == k) <;> rfl

theorem lookupKV_isSome_of_mem_keys {V : Type} (m : List (String × V)) (k : String)
    (h : k ∈ m.map Prod.fst) : (lookupKV m k).isSome := by
  induction m with
  | nil => simp at h
  | cons e t ih =>
    rw [lookupKV_cons]
    simp only [List.map_cons, List.mem_cons] at h
    by_cases he : e.1 = k
    · rw [if_pos he]; rfl
    · rw [if_neg he]
      rcases h with h1 | h1
      · exact absurd h1.symm he
      · exact ih h1

theorem not_mem_keys_of_not_hasKey {V : Type} (c : LRU V) (k : String)
    (h : ¬ c.hasKey k) : k ∉ c.entries.map Prod.fst := by
  intro hmem
  apply h
  rw [hasKey_eq_isSome]
  exact lookupKV_isSome_of_mem_keys _ _ hmem

theorem eraseKey_keys_subset {V : Type} (m : List (String × V)) (j k : String)
    (h : k ∈ (eraseKey m j).map Prod.fst) : k ∈ m.map Prod.fst := by
  induction m with
  | nil => simpa [eraseKey] using h
  | cons e t ih =>
    by_cases he : e.1 = j
    · rw [show eraseKey (e :: t) j = t from by simp [eraseKey, he]] at h
      simp only [List.map_cons, List.mem_cons]
      exact Or.inr h
    · rw [show eraseKey (e :: t) j = e :: eraseKey t j from by simp [eraseKey, he]] at h
      simp only [List.map_cons, List.mem_cons] at h ⊢
      rcases h with h | h
      · exact Or.inl h
      · exact Or.inr (ih h)

theorem eraseKey_keys_nodup {V : Type} (m : List (String × V)) (j : String)
    (h : (m.map Prod.fst).Nodup) : ((eraseKey m j).map Prod.fst).Nodup := by
  induction m with
  | nil => simpa [eraseKey]
  | cons e t ih =>
    simp only [List.map_cons, List.nodup_cons] at h
    by_cases he : e.1 = j
    · rw [show eraseKey (e :: t) j = t from by simp [eraseKey, he]]
      exact h.2
    · rw [show eraseKey (e :: t) j = e :: eraseKey t j from by simp [eraseKey, he]]
      simp only [List.map_cons, List.nodup_cons]
      exact ⟨fun hmem => h.1 (eraseKey_keys_subset t j e.1 hmem), ih h.2⟩

theorem lookupKV_eraseKey {V : Type} (m : List (String × V)) (j k : String)
    (hnd : (m.map Prod.fst).Nodup) :
    lookupKV (eraseKey m j) k = if k = j then none else lookupKV m k := by
  induction m with
  | nil => by_cases h : k = j <;> simp [eraseKey, lookupKV_nil, h]
  | cons e t ih =>
    simp only [List.map_cons, List.nodup_cons] at hnd
    by_cases he : e.1 = j
    · rw [show eraseKey (e :: t) j = t from by simp [eraseKey, he]]
      by_cases hk : k = j
      · rw [if_pos hk]
        apply lookupKV_eq_none_of_not_mem
        rw [hk, ← he]
        exact hnd.1
      · rw [if_neg hk, lookupKV_cons,
          if_neg (show ¬ e.1 = k from fun hh => hk (hh.symm.trans he))]
    · rw [show eraseKey (e :: t) j = e :: eraseKey t j from by simp [eraseKey, he]]
      rw [lookupKV_cons, lookupKV_cons]
      by_cases hek : e.1 = k
      · rw [if_pos hek, if_pos hek, if_neg (show ¬ k = j from fun hh => he (hek.trans hh))]
      · rw [if_neg hek, if_neg hek, ih hnd.2]

theorem lookupKV_append_single {V : Type} (m : List (String × V)) (j : String) (v : V)
    (k : String) :
    lookupKV (m ++ [(j, v)]) k
      = match lookupKV m k with
        | some w => some w
        | none => if j = k then some v else none := by
  induction m with
  | nil =>
    rw [List.nil_append, lookupKV_cons, lookupKV_nil]
  | cons e t ih =>
    rw [List.cons_append, lookupKV_cons, lookupKV_cons]
    by_cases he : e.1 = k
    · rw [if_pos he, if_pos he]
    · rw [if_neg he, if_neg he, ih]

theorem ov_sublist_overflowUpdate (tr : LRU (Nat × Bool)) (c : Nat) (id : String)
    (ov : List String) : ov.Sublist (overflowUpdate tr c id ov) := by
  unfold overflowUpdate
  by_cases hb : ¬ tr.hasKey id ∧ tr.size ≥ c
  · rw [if_pos hb]
    cases hfk : tr.firstKey with
    | none => exact List.Sublist.refl ov
    | some k0 =>
      show ov.Sublist (if k0 ≠ "" then (if ov.contains k0 then ov else ov ++ [k0]) else ov)
      by_cases hk0 : k0 ≠ ""
      · rw [if_pos hk0]
        by_cases hc : ov.contains k0
        · rw [if_pos hc]
        · rw [if_neg hc]
          exact List.sublist_append_left ov [k0]
      · rw [if_neg hk0]
  · rw [if_neg hb]

theorem pass1_ov_sublist {α : Type} (c : Nat) (ls : List (Line α)) (n : Nat)
    (tr : LRU (Nat × Bool)) (ov : List String) :
    ov.Sublist (vacuumPass1Go c ls n tr ov).2 := by
  induction ls generalizing n tr ov with
  | nil => exact List.Sublist.refl ov
  | cons l t ih =>
    show ov.Sublist (vacuumPass1Go c (l :: t) n tr ov).2
    unfold vacuumPass1Go
    cases hl : lineRec l with
    | none => exact ih (n + 1) tr ov
    | some r =>
      exact List.Sublist.trans (ov_sublist_overflowUpdate tr c r.id ov) (ih (n + 1) _ _)

/-- When the overflow update yields the empty set and all tracked keys
are JS-truthy, no overflow was recorded, so either the id was already
tracked, the cache was not full, or the cache was empty: in every case
the subsequent `set` evicts nothing. -/
theorem overflowUpdate_nil (tr : LRU (Nat × Bool)) (c : Nat) (id : String)
    (ov : List String) (hkeys : ∀ k ∈ tr.entries.map Prod.fst, k ≠ "")
    (h : overflowUpdate tr c id ov = []) :
    ov = [] ∧ (tr.hasKey id ∨ tr.entries.length < c ∨ tr.entries = []) := by
  unfold overflowUpdate at h
  by_cases hb : ¬ tr.hasKey id ∧ tr.size ≥ c
  · rw [if_pos hb] at h
    cases hent : tr.entries with
    | nil =>
      have hfk : tr.firstKey = none := by simp [LRU.firstKey, hent]
      rw [hfk] at h
      exact ⟨h, Or.inr (Or.inr rfl)⟩
    | cons e rest =>
      exfalso
      have hfk : tr.firstKey = some e.1 := by simp [LRU.firstKey, hent]
      rw [hfk] at h
      have h2 : (if e.1 ≠ "" then (if ov.contains e.1 then ov else ov ++ [e.1]) else ov)
          = [] := h
      have he1 : e.1 ≠ "" := hkeys e.1 (by rw [hent]; exact List.mem_cons_self _ _)
      rw [if_pos he1] at h2
      by_cases hc : ov.contains e.1
      · rw [if_pos hc] at h2
        rw [h2] at hc
        simp [List.contains] at hc
      · rw [if_neg hc] at h2
        exact List.cons_ne_nil _ _ (List.append_eq_nil.mp h2).2
  · rw [if_neg hb] at h
    push_neg at hb
    by_cases hhas : tr.hasKey id
    · exact ⟨h, Or.inl hhas⟩
    · have := hb hhas
      exact ⟨h, Or.inr (Or.inl (by simpa [LRU.size] using this))⟩

theorem eraseKey_of_not_mem {V : Type} (m : List (String × V)) (k : String)
    (h : k ∉ m.map Prod.fst) : eraseKey m k = m := by
  induction m with
  | nil => rfl
  | cons e t ih =>
    simp only [List.map_cons, List.mem_cons] at h
    push_neg at h
    have hek : ¬ e.1 = k := fun hh => h.1 hh.symm
    rw [show eraseKey (e :: t) k = e :: eraseKey t k from by simp [eraseKey, hek]]
    rw [ih h.2]

/-- Under any of the no-eviction conditions, `set` is erase-then-append. -/
theorem LRU.set_entries_no_evict {V : Type} (tr : LRU V) (k : String) (v : V)
    (h : tr.hasKey k ∨ tr.entries.length < tr.maxSize ∨ tr.entries = []) :
    (tr.set k v).entries = eraseKey tr.entries k ++ [(k, v)] := by
  unfold LRU.set
  by_cases hhas : tr.hasKey k
  · rw [if_pos hhas]
  · rw [if_neg hhas]
    have herase : eraseKey tr.entries k = tr.entries :=
      eraseKey_of_not_mem _ _ (not_mem_keys_of_not_hasKey tr k hhas)
    rcases h with h | h | h
    · exact absurd h hhas
    · rw [if_neg (by omega), herase]
    · by_cases hfull : tr.entries.length ≥ tr.maxSize
      · rw [if_pos hfull, h]
        rfl
      · rw [if_neg hfull, herase]

end Coldbase

namespace Coldbase

/-- Pass 1 with an empty final overflow set computes exactly the
last-occurrence tracker: no id was ever evicted, so the LRU behaves as a
plain last-write map. -/
theorem vacuumPass1Go_lookup {α : Type} (c : Nat) (ls : List (Line α)) :
    ∀ (n : Nat) (tr : LRU (Nat × Bool)) (ov : List String),
    tr.maxSize = c →
    (∀ r ∈ ls.filterMap lineRec, r.id ≠ "") →
    (∀ k ∈ tr.entries.map Prod.fst, k ≠ "") →
    (tr.entries.map Prod.fst).Nodup →
    (vacuumPass1Go c ls n tr ov).2 = [] →
    ∀ k, lookupKV (vacuumPass1Go c ls n tr ov).1.entries k
      = match specTrack ls n k with
        | some e => some e
        | none => lookupKV tr.entries k := by
  induction ls with
  | nil => intro n tr ov _ _ _ _ _ k; rfl
  | cons l t ih =>
    intro n tr ov hmax hid hkeys hnd hres k
    cases hl : lineRec l with
    | none =>
      have hfm : (l :: t).filterMap lineRec = t.filterMap lineRec := by
        rw [List.filterMap_cons, hl]
      have hgo : vacuumPass1Go c (l :: t) n tr ov = vacuumPass1Go c t (n + 1) tr ov := by
        show (match lineRec l with
          | none => vacuumPass1Go c t (n + 1) tr ov
          | some r => vacuumPass1Go c t (n + 1) (tr.set r.id (n + 1, r.data.isNone))
              (overflowUpdate tr c r.id ov)) = _
        rw [hl]
      rw [hgo] at hres
      have hih := ih (n + 1) tr ov hmax (by rw [hfm] at hid; exact hid) hkeys hnd hres k
      rw [hgo, hih]
      cases hs : specTrack t (n + 1) k with
      | some e =>
        have hsp : specTrack (l :: t) n k = some e := by
          show (match specTrack t (n + 1) k with
            | some e => some e
            | none =>
              match lineRec l with
              | some r => if r.id = k then some (n + 1, r.data.isNone) else none
              | none => none) = some e
          rw [hs]
        rw [hsp]
      | none =>
        have hsp : specTrack (l :: t) n k = none := by
          show (match specTrack t (n + 1) k with
            | some e => some e
            | none =>
              match lineRec l with
              | some r => if r.id = k then some (n + 1, r.data.isNone) else none
              | none => none) = none
          rw [hs, hl]
        rw [hsp]
    | some r =>
      have hgo : vacuumPass1Go c (l :: t) n tr ov
          = vacuumPass1Go c t (n + 1) (tr.set r.id (n + 1, r.data.isNone))
              (overflowUpdate tr c r.id ov) := by
        show (match lineRec l with
          | none => vacuumPass1Go c t (n + 1) tr ov
          | some r => vacuumPass1Go c t (n + 1) (tr.set r.id (n + 1, r.data.isNone))
              (overflowUpdate tr c r.id ov)) = _
        rw [hl]
      rw [hgo] at hres
      have hov2 : overflowUpdate tr c r.id ov = [] := by
        have hsub := pass1_ov_sublist c t (n + 1) (tr.set r.id (n + 1, r.data.isNone))
          (overflowUpdate tr c r.id ov)
        rw [hres] at hsub
        exact List.sublist_nil.mp hsub
      have hcase := overflowUpdate_nil tr c r.id ov hkeys hov2
      have hrid : r.id ≠ "" := by
        apply hid r
        rw [List.filterMap_cons, hl]
        exact List.mem_cons_self _ _
      have hset : (tr.set r.id (n + 1, r.data.isNone)).entries
          = eraseKey tr.entries r.id ++ [(r.id, (n + 1, r.data.isNone))] := by
        apply LRU.set_entries_no_evict
        rcases hcase.2 with h | h | h
        · exact Or.inl h
        · exact Or.inr (Or.inl (by rw [hmax]; exact h))
        · exact Or.inr (Or.inr h)
      have hkeys2 : ∀ k2 ∈ (tr.set r.id (n + 1, r.data.isNone)).entries.map Prod.fst,
          k2 ≠ "" := by
        intro k2 hk2
        rw [hset, List.map_append] at hk2
        rcases List.mem_append.mp hk2 with h1 | h1
        · exact hkeys k2 (eraseKey_keys_subset _ _ _ h1)
        · simp only [List.map_cons, List.map_nil, List.mem_singleton] at h1
          rw [h1]
          exact hrid
      have hnd2 : ((tr.set r.id (n + 1, r.data.isNone)).entries.map Prod.fst).Nodup := by
        rw [hset, List.map_append]
        apply List.Nodup.append (eraseKey_keys_nodup _ _ hnd) (by simp)
        intro a h1 h2
        simp only [List.map_cons, List.map_nil, List.mem_singleton] at h2
        rw [h2] at h1
        have hsome : (lookupKV (eraseKey tr.entries r.id) r.id).isSome :=
          lookupKV_isSome_of_mem_keys _ _ h1
        rw [lookupKV_eraseKey _ _ _ hnd, if_pos rfl] at hsome
        cases hsome
      have hmax2 : (tr.set r.id (n + 1, r.data.isNone)).maxSize = c := hmax
      have hid2 : ∀ r2 ∈ t.filterMap lineRec, r2.id ≠ "" := by
        intro r2 h2
        apply hid
        rw [List.filterMap_cons, hl]
        exact List.mem_cons_of_mem _ h2
      have hih := ih (n + 1) _ _ hmax2 hid2 hkeys2 hnd2 hres k
      rw [hgo, hih]
      have hlook2 : lookupKV (tr.set r.id (n + 1, r.data.isNone)).entries k
          = if r.id = k then some (n + 1, r.data.isNone) else lookupKV tr.entries k := by
        rw [hset, lookupKV_append_single, lookupKV_eraseKey _ _ _ hnd]
        by_cases hk : k = r.id
        · rw [if_pos hk]
          show (if r.id = k then some (n + 1, r.data.isNone) else none) = _
          rw [if_pos hk.symm, if_pos hk.symm]
        · rw [if_neg hk]
          have hrk : ¬ r.id = k := fun hh => hk hh.symm
          cases hlk : lookupKV tr.entries k with
          | some w =>
            show some w = _
            rw [if_neg hrk]
          | none =>
            show (if r.id = k then some (n + 1, r.data.isNone) else none) = _
            rw [if_neg hrk]
      rw [hlook2]
      have hspec : specTrack (l :: t) n k
          = match specTrack t (n + 1) k with
            | some e => some e
            | none => if r.id = k then some (n + 1, r.data.isNone) else none := by
        show (match specTrack t (n + 1) k with
          | some e => some e
          | none =>
            match lineRec l with
            | some r => if r.id = k then some (n + 1, r.data.isNone) else none
            | none => none) = _
        rw [hl]
      rw [hspec]
      cases hs : specTrack t (n + 1) k with
      | some e => rfl
      | none =>
        by_cases hrk : r.id = k
        · rw [if_pos hrk]
          show _ = (match (if r.id = k then some (n + 1, r.data.isNone) else none) with
            | some e => some e
            | none => lookupKV tr.entries k)
          rw [if_pos hrk]
        · rw [if_neg hrk]
          show _ = (match (if r.id = k then some (n + 1, r.data.isNone) else none) with
            | some e => some e
            | none => lookupKV tr.entries k)
          rw [if_neg hrk]

/-- Top-level pass-1 characterisation: empty overflow set means the
final tracker's lookup is exactly `specTrack`. -/
theorem vacuumPass1_lookup {α : Type} (c : Nat) (lines : List (Line α))
    (hid : ∀ r ∈ lines.filterMap lineRec, r.id ≠ "")
    (hres : (vacuumPass1 c lines).2 = []) (k : String) :
    lookupKV (vacuumPass1 c lines).1.entries k = specTrack lines 0 k := by
  unfold vacuumPass1 at hres ⊢
  rw [vacuumPass1Go_lookup c lines 0 ⟨c, []⟩ [] rfl hid (by simp) (by simp) hres k]
  cases hs : specTrack lines 0 k <;> rfl

end Coldbase

namespace Coldbase

/-- What pass 2 keeps, as a function of a tracker-lookup `g`: the parsed
lines that are the recorded last occurrence of a non-tombstoned id. -/
def keptSpec {α : Type} (g : String → Option (Nat × Bool)) :
    List (Line α) → Nat → List (Line α)
  | [], _ => []
  | l :: ls, n =>
    match lineRec l with
    | none => keptSpec g ls (n + 1)
    | some r =>
      if g r.id = some (n + 1, false) then l :: keptSpec g ls (n + 1)
      else keptSpec g ls (n + 1)

theorem pass2_eq_keptSpec {α : Type} (tr : LRU (Nat × Bool)) (ls : List (Line α)) (n : Nat) :
    vacuumPass2Go tr [] ls n = keptSpec (fun k => lookupKV tr.entries k) ls n := by
  induction ls generalizing n with
  | nil => rfl
  | cons l t ih =>
    show (match lineRec l with
      | none => vacuumPass2Go tr [] t (n + 1)
      | some r =>
        let keep : Bool :=
          if ([] : List String).contains r.id then !r.data.isNone
          else
            match lookupKV tr.entries r.id with
            | some e => decide (e.1 = n + 1) && !e.2
            | none => false
        if keep then l :: vacuumPass2Go tr [] t (n + 1) else vacuumPass2Go tr [] t (n + 1))
      = _
    cases hl : lineRec l with
    | none =>
      show vacuumPass2Go tr [] t (n + 1) = _
      rw [ih]
      show _ = (match lineRec l with
        | none => keptSpec (fun k => lookupKV tr.entries k) t (n + 1)
        | some r =>
          if lookupKV tr.entries r.id = some (n + 1, false) then
            l :: keptSpec (fun k => lookupKV tr.entries k) t (n + 1)
          else keptSpec (fun k => lookupKV tr.entries k) t (n + 1))
      rw [hl]
    | some r =>
      show (if (if ([] : List String).contains r.id then !r.data.isNone
          else
            match lookupKV tr.entries r.id with
            | some e => decide (e.1 = n + 1) && !e.2
            | none => false)
        then l :: vacuumPass2Go tr [] t (n + 1) else vacuumPass2Go tr [] t (n + 1)) = _
      have hcont : (([] : List String).contains r.id) = false := rfl
      rw [hcont]
      have hkeep : (if (false : Bool) then !r.data.isNone
          else
            match lookupKV tr.entries r.id with
            | some e => decide (e.1 = n + 1) && !e.2
            | none => false)
          = decide (lookupKV tr.entries r.id = some (n + 1, false)) := by
        rw [if_neg (by simp)]
        cases hlk : lookupKV tr.entries r.id with
        | none => simp
        | some e =>
          rcases e with ⟨j, b⟩
          by_cases hj : j = n + 1
          · cases b <;> simp [hj]
          · simp [hj]
      rw [hkeep, ih]
      show _ = (match lineRec l with
        | none => keptSpec (fun k => lookupKV tr.entries k) t (n + 1)
        | some r =>
          if lookupKV tr.entries r.id = some (n + 1, false) then
            l :: keptSpec (fun k => lookupKV tr.entries k) t (n + 1)
          else keptSpec (fun k => lookupKV tr.entries k) t (n + 1))
      have hrhs : (match lineRec l with
        | none => keptSpec (fun k => lookupKV tr.entries k) t (n + 1)
        | some r =>
          if lookupKV tr.entries r.id = some (n + 1, false) then
            l :: keptSpec (fun k => lookupKV tr.entries k) t (n + 1)
          else keptSpec (fun k => lookupKV tr.entries k) t (n + 1))
          = if lookupKV tr.entries r.id = some (n + 1, false) then
              l :: keptSpec (fun k => lookupKV tr.entries k) t (n + 1)
            else keptSpec (fun k => lookupKV tr.entries k) t (n + 1) := by
        rw [hl]
      rw [hrhs]
      by_cases hc : lookupKV tr.entries r.id = some (n + 1, false)
      · rw [if_pos (show (decide (lookupKV tr.entries r.id = some (n + 1, false))) = true by
          simpa using hc), if_pos hc]
      · rw [if_neg (show ¬ (decide (lookupKV tr.entries r.id = some (n + 1, false))) = true by
          simpa using hc), if_neg hc]

theorem keptSpec_sublist {α : Type} (g : String → Option (Nat × Bool))
    (ls : List (Line α)) (n : Nat) : (keptSpec g ls n).Sublist ls := by
  induction ls generalizing n with
  | nil => exact List.Sublist.refl []
  | cons l t ih =>
    show (match lineRec l with
      | none => keptSpec g t (n + 1)
      | some r =>
        if g r.id = some (n + 1, false) then l :: keptSpec g t (n + 1)
        else keptSpec g t (n + 1)).Sublist (l :: t)
    cases hl : lineRec l with
    | none => exact List.Sublist.cons l (ih (n + 1))
    | some r =>
      show (if g r.id = some (n + 1, false) then l :: keptSpec g t (n + 1)
        else keptSpec g t (n + 1)).Sublist (l :: t)
      by_cases hc : g r.id = some (n + 1, false)
      · rw [if_pos hc]
        exact List.Sublist.cons₂ l (ih (n + 1))
      · rw [if_neg hc]
        exact List.Sublist.cons l (ih (n + 1))

theorem mem_ids_of_lastRec_some {α : Type} (recs : List (Rec α)) (k : String) (r : Rec α)
    (h : lastRec recs k = some r) : k ∈ recs.map Rec.id := by
  have hmem : r ∈ recs.reverse := List.mem_of_find?_eq_some h
  have hid : r.id = k := by simpa using List.find?_some h
  rw [← hid]
  exact List.mem_map_of_mem Rec.id (List.mem_reverse.mp hmem)

theorem lastRec_ne_none_of_mem {α : Type} (recs : List (Rec α)) (k : String)
    (h : k ∈ recs.map Rec.id) : lastRec recs k ≠ none := by
  intro hnone
  unfold lastRec at hnone
  rw [List.find?_eq_none] at hnone
  rcases List.mem_map.mp h with ⟨r, hr, hrk⟩
  exact hnone r (List.mem_reverse.mpr hr) (by simpa using hrk)

end Coldbase

namespace Coldbase

theorem specTrack_cons_none {α : Type} (l : Line α) (t : List (Line α)) (n : Nat) (k : String)
    (hl : lineRec l = none) :
    specTrack (l :: t) n k
      = match specTrack t (n + 1) k with
        | some e => some e
        | none => none := by
  show (match specTrack t (n + 1) k with
    | some e => some e
    | none =>
      match lineRec l with
      | some r => if r.id = k then some (n + 1, r.data.isNone) else none
      | none => none) = _
  rw [hl]

theorem specTrack_cons_some {α : Type} (l : Line α) (t : List (Line α)) (n : Nat) (k : String)
    (r : Rec α) (hl : lineRec l = some r) :
    specTrack (l :: t) n k
      = match specTrack t (n + 1) k with
        | some e => some e
        | none => if r.id = k then some (n + 1, r.data.isNone) else none := by
  show (match specTrack t (n + 1) k with
    | some e => some e
    | none =>
      match lineRec l with
      | some r => if r.id = k then some (n + 1, r.data.isNone) else none
      | none => none) = _
  rw [hl]

theorem keptSpec_cons_none {α : Type} (g : String → Option (Nat × Bool)) (l : Line α)
    (t : List (Line α)) (n : Nat) (hl : lineRec l = none) :
    keptSpec g (l :: t) n = keptSpec g t (n + 1) := by
  show (match lineRec l with
    | none => keptSpec g t (n + 1)
    | some r =>
      if g r.id = some (n + 1, false) then l :: keptSpec g t (n + 1)
      else keptSpec g t (n + 1)) = _
  rw [hl]

theorem keptSpec_cons_some {α : Type} (g : String → Option (Nat × Bool)) (l : Line α)
    (t : List (Line α)) (n : Nat) (r : Rec α) (hl : lineRec l = some r) :
    keptSpec g (l :: t) n
      = if g r.id = some (n + 1, false) then l :: keptSpec g t (n + 1)
        else keptSpec g t (n + 1) := by
  show (match lineRec l with
    | none => keptSpec g t (n + 1)
    | some r =>
      if g r.id = some (n + 1, false) then l :: keptSpec g t (n + 1)
      else keptSpec g t (n + 1)) = _
  rw [hl]

theorem hag_descend {α : Type} (l : Line α) (t : List (Line α)) (n : Nat)
    (g : String → Option (Nat × Bool))
    (hag : ∀ k2 ∈ (((l :: t).filterMap lineRec).map Rec.id), g k2 = specTrack (l :: t) n k2) :
    ∀ k2 ∈ ((t.filterMap lineRec).map Rec.id), g k2 = specTrack t (n + 1) k2 := by
  intro k2 hk2
  have hmemcons : k2 ∈ (((l :: t).filterMap lineRec).map Rec.id) := by
    rw [List.filterMap_cons]
    cases hl : lineRec l with
    | none => exact hk2
    | some r =>
      simp only [List.map_cons, List.mem_cons]
      exact Or.inr hk2
  have hg := hag k2 hmemcons
  have hne := lastRec_ne_none_of_mem (t.filterMap lineRec) k2 hk2
  cases hs : specTrack t (n + 1) k2 with
  | none => exact absurd ((specTrack_lastRec t (n + 1) k2).1.mp hs) hne
  | some e =>
    rw [hg]
    cases hl : lineRec l with
    | none => rw [specTrack_cons_none l t n k2 hl, hs]
    | some r => rw [specTrack_cons_some l t n k2 r hl, hs]

/-- Master pass-2 characterisation (no overflow): for each id, the kept
lines contribute exactly its last record when that record is live, and
nothing otherwise. -/
theorem keptSpec_filter {α : Type} (ls : List (Line α)) :
    ∀ (n : Nat) (g : String → Option (Nat × Bool)),
    (∀ k2 ∈ ((ls.filterMap lineRec).map Rec.id), g k2 = specTrack ls n k2) →
    ∀ k, ((keptSpec g ls n).filterMap lineRec).filter (fun r => r.id == k)
      = match specTrack ls n k with
        | some e => if e.2 then [] else (lastRec (ls.filterMap lineRec) k).toList
        | none => [] := by
  induction ls with
  | nil => intro n g _ k; rfl
  | cons l t ih =>
    intro n g hag k
    cases hl : lineRec l with
    | none =>
      have hfm : (l :: t).filterMap lineRec = t.filterMap lineRec := by
        rw [List.filterMap_cons, hl]
      have hih := ih (n + 1) g (hag_descend l t n g hag) k
      rw [keptSpec_cons_none g l t n hl, hfm, hih, specTrack_cons_none l t n k hl]
      cases hs : specTrack t (n + 1) k with
      | some e => rfl
      | none => rfl
    | some r =>
      have hfm : (l :: t).filterMap lineRec = r :: t.filterMap lineRec := by
        rw [List.filterMap_cons, hl]
      have hgr : g r.id = specTrack (l :: t) n r.id := by
        apply hag r.id
        rw [hfm]
        simp only [List.map_cons, List.mem_cons]
        exact Or.inl trivial
      have hih := ih (n + 1) g (hag_descend l t n g hag) k
      rw [keptSpec_cons_some g l t n r hl, specTrack_cons_some l t n k r hl]
      by_cases hrk : r.id = k
      · cases hs : specTrack t (n + 1) k with
        | some e =>
          have hbound := (specTrack_lastRec t (n + 1) k).2 e.1 e.2 (by rw [hs])
          have hne : g r.id ≠ some (n + 1, false) := by
            rw [hgr, specTrack_cons_some l t n r.id r hl, hrk, hs]
            intro hcontra
            have he : e = (n + 1, false) := by injection hcontra
            rw [he] at hbound
            omega
          rw [if_neg hne]
          rcases hbound.2.2 with ⟨r2, hr2, _⟩
          rw [hih, hs]
          rw [hfm, lastRec_cons, hr2]
          rfl
        | none =>
          have hlt : lastRec (t.filterMap lineRec) k = none :=
            (specTrack_lastRec t (n + 1) k).1.mp hs
          have hgr2 : g r.id = some (n + 1, r.data.isNone) := by
            rw [hgr, specTrack_cons_some l t n r.id r hl, hrk, hs]
            show (if k = k then some (n + 1, r.data.isNone) else none) = _
            rw [if_pos rfl]
          have hlcons : lastRec ((l :: t).filterMap lineRec) k = some r := by
            rw [hfm, lastRec_cons, hlt, if_pos hrk]
            rfl
          cases hb : r.data.isNone with
          | false =>
            rw [hb] at hgr2
            rw [if_pos hgr2, List.filterMap_cons, hl, List.filter_cons]
            rw [if_pos (show (r.id == k) = true by simpa using hrk)]
            rw [hih, hs]
            show r :: [] = _
            rw [if_pos hrk, hlcons]
            rfl
          | true =>
            rw [hb] at hgr2
            have hne : g r.id ≠ some (n + 1, false) := by
              rw [hgr2]
              intro hcontra
              have : (true : Bool) = false := by
                have := congrArg (fun o => o.getD (0, true)) hcontra
                simpa using this
              cases this
            rw [if_neg hne, hih, hs]
            show [] = _
            rw [if_pos hrk]
            rfl
      · have hbk : (r.id == k) = false := by simpa using hrk
        have hlcons : lastRec ((l :: t).filterMap lineRec) k
            = lastRec (t.filterMap lineRec) k := by
          rw [hfm, lastRec_cons, if_neg hrk]
          cases hx : lastRec (t.filterMap lineRec) k <;> rfl
        by_cases hc : g r.id = some (n + 1, false)
        · rw [if_pos hc, List.filterMap_cons, hl, List.filter_cons, if_neg (by simp [hbk])]
          rw [hih, hlcons]
          cases hs : specTrack t (n + 1) k with
          | some e =>
            show (if e.2 then [] else _) = _
            rfl
          | none =>
            show ([] : List (Rec α)) = _
            rw [if_neg hrk]
        · rw [if_neg hc, hih, hlcons]
          cases hs : specTrack t (n + 1) k with
          | some e => rfl
          | none =>
            show ([] : List (Rec α)) = _
            rw [if_neg hrk]

end Coldbase

namespace Coldbase

theorem find?_eq_head_filter {β : Type} (p : β → Bool) (l : List β) :
    l.find? p = (l.filter p).head? := by
  induction l with
  | nil => rfl
  | cons a t ih =>
    cases hp : p a with
    | true =>
      rw [List.find?_cons_of_pos _ hp, List.filter_cons_of_pos hp]
      rfl
    | false =>
      rw [List.find?_cons_of_neg _ (by simp [hp]), List.filter_cons_of_neg (by simp [hp]), ih]

theorem lastRec_eq_getLast_filter {α : Type} (recs : List (Rec α)) (k : String) :
    lastRec recs k = (recs.filter (fun r => r.id == k)).getLast? := by
  unfold lastRec
  rw [find?_eq_head_filter, List.filter_reverse, List.head?_reverse]

/-- Per-id last record of the kept stream. -/
theorem keptSpec_lastRec {α : Type} (ls : List (Line α)) (n : Nat)
    (g : String → Option (Nat × Bool))
    (hag : ∀ k2 ∈ ((ls.filterMap lineRec).map Rec.id), g k2 = specTrack ls n k2)
    (k : String) :
    lastRec ((keptSpec g ls n).filterMap lineRec) k
      = match specTrack ls n k with
        | some e => if e.2 then none else lastRec (ls.filterMap lineRec) k
        | none => none := by
  rw [lastRec_eq_getLast_filter, keptSpec_filter ls n g hag k]
  cases hs : specTrack ls n k with
  | none => rfl
  | some e =>
    rcases e with ⟨j, b⟩
    show (if b then ([] : List (Rec α))
      else (lastRec (ls.filterMap lineRec) k).toList).getLast?
      = if b then none else lastRec (ls.filterMap lineRec) k
    cases b with
    | true => rfl
    | false =>
      cases hx : lastRec (ls.filterMap lineRec) k <;> rfl

/-- The effective per-id value (tombstone folded to absent) survives the
kept projection. -/
theorem keptSpec_join_preserved {α : Type} (ls : List (Line α)) (n : Nat)
    (g : String → Option (Nat × Bool))
    (hag : ∀ k2 ∈ ((ls.filterMap lineRec).map Rec.id), g k2 = specTrack ls n k2)
    (k : String) :
    ((lastRec ((keptSpec g ls n).filterMap lineRec) k).map Rec.data).join
      = ((lastRec (ls.filterMap lineRec) k).map Rec.data).join := by
  rw [keptSpec_lastRec ls n g hag k]
  cases hs : specTrack ls n k with
  | none =>
    rw [(specTrack_lastRec ls n k).1.mp hs]
  | some e =>
    rcases e with ⟨j, b⟩
    rcases ((specTrack_lastRec ls n k).2 j b (by rw [hs])).2.2 with ⟨r, hr, hb⟩
    cases b with
    | true =>
      show ((none : Option (Rec α)).map Rec.data).join = _
      rw [hr]
      have hrd : r.data = none := Option.isNone_iff_eq_none.mp hb
      rw [show (some r).map Rec.data = some r.data from rfl, hrd]
      rfl
    | false => rfl

/-- `count` counted over the map keys with the per-id liveness test. -/
def countLive {α : Type} (recs : List (Rec α)) : Nat :=
  ((latestFold recs).filter (fun p => p.2.isSome)).length

theorem count_eq_keys_filter {α : Type} (recs : List (Rec α)) :
    countLive recs
      = (((latestFold recs).map Prod.fst).filter
          (fun k => (((lastRec recs k).map Rec.data).join).isSome)).length := by
  unfold countLive
  rw [List.filter_map, List.length_map]
  apply congrArg List.length
  apply List.filter_congr
  intro p hp
  have hl := lookupKV_of_mem _ p (latestFold_keys_nodup recs) hp
  rw [latestFold_lookup] at hl
  show p.2.isSome = (((lastRec recs p.1).map Rec.data).join).isSome
  rw [hl]
  cases p.2 <;> rfl

theorem countLive_eq_of_join_eq {α : Type} (A B : List (Rec α))
    (h : ∀ k, ((lastRec A k).map Rec.data).join = ((lastRec B k).map Rec.data).join) :
    countLive A = countLive B := by
  rw [count_eq_keys_filter A, count_eq_keys_filter B]
  have hndA : (((latestFold A).map Prod.fst).filter
      (fun k => (((lastRec A k).map Rec.data).join).isSome)).Nodup :=
    (latestFold_keys_nodup A).filter _
  have hndB : (((latestFold B).map Prod.fst).filter
      (fun k => (((lastRec B k).map Rec.data).join).isSome)).Nodup :=
    (latestFold_keys_nodup B).filter _
  rw [← List.toFinset_card_of_nodup hndA, ← List.toFinset_card_of_nodup hndB]
  apply congrArg Finset.card
  rw [List.toFinset_filter, List.toFinset_filter]
  ext k
  simp only [Finset.mem_filter, List.mem_toFinset, latestFold_keys_mem]
  constructor
  · rintro ⟨_, hq⟩
    have hqB : (((lastRec B k).map Rec.data).join).isSome = true := by rw [← h k]; exact hq
    refine ⟨?_, hqB⟩
    cases hlb : lastRec B k with
    | none => rw [hlb] at hqB; cases hqB
    | some r => exact mem_ids_of_lastRec_some B k r hlb
  · rintro ⟨_, hq⟩
    have hqA : (((lastRec A k).map Rec.data).join).isSome = true := by rw [h k]; exact hq
    refine ⟨?_, hqA⟩
    cases hla : lastRec A k with
    | none => rw [hla] at hqA; cases hqA
    | some r => exact mem_ids_of_lastRec_some A k r hla

end Coldbase

namespace Coldbase

theorem filterMap_length_of_all_isSome {β γ : Type} (l : List β) (f : β → Option γ)
    (h : ∀ x ∈ l, (f x).isSome) : (l.filterMap f).length = l.length := by
  induction l with
  | nil => rfl
  | cons a t ih =>
    rw [List.filterMap_cons]
    cases hf : f a with
    | none =>
      exfalso
      have := h a (List.mem_cons_self a t)
      rw [hf] at this
      cases this
    | some c =>
      simp only [List.length_cons]
      rw [ih (fun x hx => h x (List.mem_cons_of_mem a hx))]

theorem keptSpec_all_parsed {α : Type} (g : String → Option (Nat × Bool))
    (ls : List (Line α)) (n : Nat) :
    ∀ l ∈ keptSpec g ls n, (lineRec l).isSome := by
  induction ls generalizing n with
  | nil => intro l hl; cases hl
  | cons l0 t ih =>
    intro l hl
    cases hl0 : lineRec l0 with
    | none =>
      rw [keptSpec_cons_none g l0 t n hl0] at hl
      exact ih (n + 1) l hl
    | some r =>
      rw [keptSpec_cons_some g l0 t n r hl0] at hl
      by_cases hc : g r.id = some (n + 1, false)
      · rw [if_pos hc] at hl
        rcases List.mem_cons.mp hl with h1 | h1
        · rw [h1, hl0]; rfl
        · exact ih (n + 1) l h1
      · rw [if_neg hc] at hl
        exact ih (n + 1) l hl

end Coldbase

namespace Coldbase

theorem keptSpec_ids_nodup {α : Type} (ls : List (Line α)) (n : Nat)
    (g : String → Option (Nat × Bool))
    (hag : ∀ k2 ∈ ((ls.filterMap lineRec).map Rec.id), g k2 = specTrack ls n k2) :
    (((keptSpec g ls n).filterMap lineRec).map Rec.id).Nodup := by
  rw [List.nodup_iff_count_le_one]
  intro k
  have hc : List.count k (((keptSpec g ls n).filterMap lineRec).map Rec.id)
      = (((keptSpec g ls n).filterMap lineRec).filter (fun r => r.id == k)).length := by
    show List.countP (fun x => x == k) (((keptSpec g ls n).filterMap lineRec).map Rec.id) = _
    rw [List.countP_map, List.countP_eq_length_filter]
    rfl
  rw [hc, keptSpec_filter ls n g hag k]
  cases hs : specTrack ls n k with
  | none => simp
  | some e =>
    rcases e with ⟨j, b⟩
    cases b with
    | true => simp
    | false =>
      cases hx : lastRec (ls.filterMap lineRec) k with
      | none => simp
      | some r => simp

theorem keptSpec_length_le {α : Type} (ls : List (Line α)) (n : Nat)
    (g : String → Option (Nat × Bool))
    (hag : ∀ k2 ∈ ((ls.filterMap lineRec).map Rec.id), g k2 = specTrack ls n k2) :
    (keptSpec g ls n).length ≤ countLive (ls.filterMap lineRec) := by
  have hlen : ((keptSpec g ls n).filterMap lineRec).length = (keptSpec g ls n).length :=
    filterMap_length_of_all_isSome _ _ (keptSpec_all_parsed g ls n)
  rw [← hlen, ← List.length_map ((keptSpec g ls n).filterMap lineRec) Rec.id]
  rw [count_eq_keys_filter]
  rw [← List.toFinset_card_of_nodup (keptSpec_ids_nodup ls n g hag)]
  rw [← List.toFinset_card_of_nodup
    ((latestFold_keys_nodup (ls.filterMap lineRec)).filter _)]
  apply Finset.card_le_card
  intro k hk
  rw [List.mem_toFinset] at hk
  simp only [List.toFinset_filter, Finset.mem_filter, List.mem_toFinset, latestFold_keys_mem]
  rcases List.mem_map.mp hk with ⟨r, hr, hrk⟩
  have hrfil : r ∈ ((keptSpec g ls n).filterMap lineRec).filter (fun r2 => r2.id == k) :=
    List.mem_filter.mpr ⟨hr, by simp [hrk]⟩
  rw [keptSpec_filter ls n g hag k] at hrfil
  cases hs : specTrack ls n k with
  | none =>
    rw [hs] at hrfil
    simp at hrfil
  | some e =>
    rcases e with ⟨j, b⟩
    rw [hs] at hrfil
    cases b with
    | true => simp at hrfil
    | false =>
      have hlast : lastRec (ls.filterMap lineRec) k = some r := by
        simpa using hrfil
      constructor
      · exact mem_ids_of_lastRec_some _ k r hlast
      · rcases ((specTrack_lastRec ls n k).2 j false (by rw [hs])).2.2 with ⟨r2, hr2, hb2⟩
        rw [hr2]
        show ((some r2.data).join).isSome = true
        cases hd : r2.data with
        | none =>
          rw [hd] at hb2
          simp at hb2
        | some d => rfl

end Coldbase

namespace Coldbase

/-- C2.  With no concurrent writers, after `vacuum` terminates on a
non-empty snapshot whose parsed ids are non-empty strings AND the
overflow set stayed empty (amended hypothesis), `get` and `count` are
preserved for every id and the new snapshot has at most one line per
distinct live id.  Without the overflow hypothesis the claim is false:
an overflowed id keeps every non-tombstone line, resurrecting ids whose
latest record is a tombstone (see the counterexample). -/
theorem claim2_vacuum_preserves_reads_when_no_overflow {α : Type}
    (cfg : CompactorCfg) (st : Store α) (lines : List (Line α))
    (hmain : st.main = some lines)
    (hne : lines ≠ [])
    (hid : ∀ r ∈ lines.filterMap lineRec, r.id ≠ "")
    (hov : (vacuumPass1 cfg.vacuumCacheSize lines).2 = []) :
    (∀ k, Collection.get (vacuumFull cfg st).2 k = Collection.get st k)
  ∧ Collection.count (vacuumFull cfg st).2 = Collection.count st
  ∧ ((vacuumFull cfg st).2.main.getD []).length ≤ countLive (lines.filterMap lineRec) := by
  obtain ⟨mn, mu, tp, ix, bl, lk⟩ := st
  have hmn : mn = some lines := hmain
  subst hmn
  have hEmpty : lines.isEmpty = false := by
    cases lines with
    | nil => exact absurd rfl hne
    | cons a t => rfl
  have hg : (fun k => lookupKV (vacuumPass1 cfg.vacuumCacheSize lines).1.entries k)
      = specTrack lines 0 := by
    funext k
    exact vacuumPass1_lookup cfg.vacuumCacheSize lines hid hov k
  have hkept : (vacuumCore cfg.vacuumCacheSize lines).1
      = keptSpec (specTrack lines 0) lines 0 := by
    show vacuumPass2Go (vacuumPass1 cfg.vacuumCacheSize lines).1
        (vacuumPass1 cfg.vacuumCacheSize lines).2 lines 0 = _
    rw [hov, pass2_eq_keptSpec, hg]
  have hagT : ∀ k2 ∈ ((lines.filterMap lineRec).map Rec.id),
      specTrack lines 0 k2 = specTrack lines 0 k2 := fun k2 _ => rfl
  have hpost2 : (vacuumFull cfg ⟨some lines, mu, tp, ix, bl, lk⟩).2
      = { main := some (keptSpec (specTrack lines 0) lines 0), muts := mu, tmp := none,
          idx := (rebuildMeta cfg (some (keptSpec (specTrack lines 0) lines 0)) ix bl).1,
          bloom := (rebuildMeta cfg (some (keptSpec (specTrack lines 0) lines 0)) ix bl).2,
          lock := some 0 } := by
    rw [← hkept]
    show (if lines.isEmpty then ((0 : Nat),
        ({ main := some lines, muts := mu, tmp := tp, idx := ix, bloom := bl,
           lock := some 0 } : Store α))
      else ((vacuumCore cfg.vacuumCacheSize lines).2.1,
        ({ main := some (vacuumCore cfg.vacuumCacheSize lines).1, muts := mu, tmp := none,
           idx := (rebuildMeta cfg (some (vacuumCore cfg.vacuumCacheSize lines).1) ix bl).1,
           bloom := (rebuildMeta cfg (some (vacuumCore cfg.vacuumCacheSize lines).1) ix bl).2,
           lock := some 0 } : Store α))).2 = _
    rw [if_neg (by simp [hEmpty])]
  refine ⟨?_, ?_, ?_⟩
  · intro k
    rw [hpost2]
    show (scanLast ((keptSpec (specTrack lines 0) lines 0).filterMap lineRec
        ++ (mu.filterMap (fun b => b)).flatten) k).join
      = (scanLast (lines.filterMap lineRec ++ (mu.filterMap (fun b => b)).flatten) k).join
    rw [scanLast_eq_lastRec, scanLast_eq_lastRec, lastRec_append, lastRec_append]
    cases hm : lastRec ((mu.filterMap (fun b => b)).flatten) k with
    | some m => rfl
    | none =>
      exact keptSpec_join_preserved lines 0 (specTrack lines 0) hagT k
  · rw [hpost2]
    show countLive ((keptSpec (specTrack lines 0) lines 0).filterMap lineRec
        ++ (mu.filterMap (fun b => b)).flatten)
      = countLive (lines.filterMap lineRec ++ (mu.filterMap (fun b => b)).flatten)
    apply countLive_eq_of_join_eq
    intro k
    rw [lastRec_append, lastRec_append]
    cases hm : lastRec ((mu.filterMap (fun b => b)).flatten) k with
    | some m => rfl
    | none =>
      exact keptSpec_join_preserved lines 0 (specTrack lines 0) hagT k
  · rw [hpost2]
    show (keptSpec (specTrack lines 0) lines 0).length ≤ countLive (lines.filterMap lineRec)
    exact keptSpec_length_le lines 0 (specTrack lines 0) hagT

/-- Snapshot whose tracker (capacity 1) evicts both ids into the
overflow set: id `a` ends in a tombstone, yet its earlier live line is
kept because overflowed ids keep every non-tombstone line. -/
def cexStore2 : Store Nat :=
  ⟨some [Line.entry ⟨"a", some 1, some 1⟩, Line.entry ⟨"b", some 2, some 2⟩,
    Line.entry ⟨"a", none, some 3⟩], [], none, none, none, none⟩

/-- C2 counterexample: with `vacuumCacheSize = 1` the overflow set is
non-empty and vacuum resurrects the tombstoned id `a` (`get` flips from
`none` to `some 1`) and inflates `count` from 1 to 2. -/
theorem claim2_counterexample :
    (vacuumPass1 (1 : Nat) (cexStore2.main.getD [])).2 ≠ ([] : List String)
  ∧ Collection.get cexStore2 "a" = none
  ∧ Collection.get (vacuumFull ⟨false, 1, 30000⟩ cexStore2).2 "a" = some 1
  ∧ Collection.count cexStore2 = 1
  ∧ Collection.count (vacuumFull ⟨false, 1, 30000⟩ cexStore2).2 = 2 := by
  decide

def witStore2 : Store Nat :=
  ⟨some [Line.entry ⟨"a", some 1, some 1⟩, Line.entry ⟨"b", some 2, some 2⟩,
    Line.entry ⟨"a", none, some 3⟩], [some [⟨"c", some 5, some 4⟩]], none, none, none, none⟩

theorem claim2_witness :
    Collection.get (vacuumFull ⟨false, 10, 30000⟩ witStore2).2 "a"
      = Collection.get witStore2 "a"
  ∧ Collection.count (vacuumFull ⟨false, 10, 30000⟩ witStore2).2 = Collection.count witStore2
  ∧ ((vacuumFull ⟨false, 10, 30000⟩ witStore2).2.main.getD []).length
      ≤ countLive ((witStore2.main.getD []).filterMap lineRec) :=
  ⟨(claim2_vacuum_preserves_reads_when_no_overflow ⟨false, 10, 30000⟩ witStore2 _
      rfl (by decide) (by decide) (by decide)).1 "a",
   (claim2_vacuum_preserves_reads_when_no_overflow ⟨false, 10, 30000⟩ witStore2 _
      rfl (by decide) (by decide) (by decide)).2.1,
   (claim2_vacuum_preserves_reads_when_no_overflow ⟨false, 10, 30000⟩ witStore2 _
      rfl (by decide) (by decide) (by decide)).2.2⟩

end Coldbase

namespace Coldbase

/-! ### Vector search (src/lib/vector-collection.ts, src/lib/vector-utils.ts)

Vector components are modelled over `ℚ`; `Rat.sqrt` stands in for the
float `Math.sqrt` (the C8 properties are order-theoretic in the scores
and independent of the square-root approximation).  The stored document
is a vector plus an opaque payload; the `unknown`/array/finiteness
checks of `validateVector` are vacuous over typed `List ℚ`, leaving the
dimension check.  Default configuration: no `ttlField`, so `isExpired`
is constantly false and is omitted. -/

inductive Metric : Type
  | cosine
  | euclidean
  | dotProduct
deriving DecidableEq, Repr

structure VDoc : Type where
  vector : List ℚ
  payload : Nat
deriving DecidableEq, Repr

/-- A returned document: `vector` is `none` when the field was stripped
(`const \x7b vector: _, ...rest \x7d = data`). -/
structure VDocOut : Type where
  vector : Option (List ℚ)
  payload : Nat
deriving DecidableEq, Repr

structure Cand : Type where
  id : String
  score : ℚ
  data : VDoc
deriving DecidableEq, Repr

structure SearchHit : Type where
  id : String
  score : ℚ
  data : VDocOut
deriving DecidableEq, Repr

/-- `dotProduct` (vector-utils.ts): loop over `a`'s indices (an absent
`b[i]` reads as the additive default). -/
def dotProduct (a b : List ℚ) : ℚ :=
  ((List.range a.length).map (fun i => a.getD i 0 * b.getD i 0)).sum

/-- `magnitude`: L2 norm. -/
def magnitude (v : List ℚ) : ℚ :=
  Rat.sqrt ((v.map (fun x => x * x)).sum)

/-- `euclideanDistance`. -/
def euclideanDistance (a b : List ℚ) : ℚ :=
  Rat.sqrt (((List.range a.length).map
    (fun i => (a.getD i 0 - b.getD i 0) * (a.getD i 0 - b.getD i 0))).sum)

/-- `normalizeVector`: the zero vector is returned unchanged. -/
def normalizeVector (v : List ℚ) : List ℚ :=
  if magnitude v = 0 then v else v.map (fun x => x / magnitude v)

/-- `validateVector`: over typed rational lists only the dimension
check can fail. -/
def validateVector (v : List ℚ) (dimension : Nat) : Bool :=
  v.length == dimension

/-- The `switch (this.metric)` score: cosine scores the (normalised)
query by plain dot product. -/
def scoreOf (m : Metric) (nq v : List ℚ) : ℚ :=
  match m with
  | Metric.cosine => Coldbase.dotProduct nq v
  | Metric.euclidean => euclideanDistance nq v
  | Metric.dotProduct => Coldbase.dotProduct nq v

structure SearchOpts : Type where
  limit : Option Nat
  threshold : Option ℚ
  filterP : Option (VDoc → Bool)
  includeVector : Bool

/-- Threshold gate: for euclidean `score > threshold` is skipped, else
`score < threshold` is skipped; no threshold keeps everything. -/
def thresholdPass (m : Metric) (t : Option ℚ) (score : ℚ) : Bool :=
  match t with
  | none => true
  | some t0 => if m = Metric.euclidean then decide (score ≤ t0) else decide (t0 ≤ score)

/-- The metadata filter; the partial-object equality form is subsumed
by the predicate form. -/
def filterPass (f : Option (VDoc → Bool)) (d : VDoc) : Bool :=
  match f with
  | some f0 => f0 d
  | none => true

/-- One entry of the `latest` map through the candidate loop: skip
tombstones, apply the filter, score, apply the threshold. -/
def candidateOf (m : Metric) (nq : List ℚ) (opts : SearchOpts)
    (p : String × Option VDoc) : Option Cand :=
  match p.2 with
  | none => none
  | some d =>
    if filterPass opts.filterP d then
      if thresholdPass m opts.threshold (scoreOf m nq d.vector) then
        some ⟨p.1, scoreOf m nq d.vector, d⟩
      else none
    else none

/-- `candidates.sort(...)`: ascending scores for euclidean, descending
otherwise (a stable sort, as `Array.prototype.sort`). -/
def sortCands (m : Metric) (cs : List Cand) : List Cand :=
  if m = Metric.euclidean then cs.mergeSort (fun a b => decide (a.score ≤ b.score))
  else cs.mergeSort (fun a b => decide (b.score ≤ a.score))

/-- Result assembly: strip the vector field unless `includeVector`. -/
def stripHit (includeVector : Bool) (c : Cand) : SearchHit :=
  if includeVector then ⟨c.id, c.score, ⟨some c.data.vector, c.data.payload⟩⟩
  else ⟨c.id, c.score, ⟨none, c.data.payload⟩⟩

/-- `search` after validation: normalise the query for cosine, build
the latest-per-id map, collect candidates, sort, `slice(0, limit)`
(default 10), strip vectors. -/
def searchCore (m : Metric) (st : Store VDoc) (q : List ℚ) (opts : SearchOpts) :
    List SearchHit :=
  ((sortCands m ((latestFold (readStream st)).filterMap
      (candidateOf m (if m = Metric.cosine then normalizeVector q else q) opts))).take
    (opts.limit.getD 10)).map (stripHit opts.includeVector)

/-- `search`: `validateVector` throws (`none`) on a dimension
mismatch. -/
def search (m : Metric) (dimension : Nat) (st : Store VDoc) (q : List ℚ)
    (opts : SearchOpts) : Option (List SearchHit) :=
  if validateVector q dimension then some (searchCore m st q opts) else none

theorem stripHit_score (iv : Bool) (c : Cand) : (stripHit iv c).score = c.score := by
  cases iv <;> rfl

theorem candidateOf_threshold {m : Metric} {nq : List ℚ} {opts : SearchOpts}
    {p : String × Option VDoc} {c : Cand}
    (h : candidateOf m nq opts p = some c) :
    thresholdPass m opts.threshold c.score = true := by
  unfold candidateOf at h
  cases hp : p.2 with
  | none => rw [hp] at h; cases h
  | some d =>
    rw [hp] at h
    have h2 : (if filterPass opts.filterP d = true then
        (if thresholdPass m opts.threshold (scoreOf m nq d.vector) = true then
          some (⟨p.1, scoreOf m nq d.vector, d⟩ : Cand) else none)
      else none) = some c := h
    by_cases hf : filterPass opts.filterP d = true
    · rw [if_pos hf] at h2
      by_cases ht : thresholdPass m opts.threshold (scoreOf m nq d.vector) = true
      · rw [if_pos ht] at h2
        injection h2 with hc
        rw [← hc]
        exact ht
      · rw [if_neg ht] at h2; cases h2
    · rw [if_neg hf] at h2; cases h2

theorem searchCore_elim {m : Metric} {st : Store VDoc} {q : List ℚ} {opts : SearchOpts}
    {h : SearchHit} (hmem : h ∈ searchCore m st q opts) :
    ∃ c, (∃ p ∈ latestFold (readStream st),
        candidateOf m (if m = Metric.cosine then normalizeVector q else q) opts p = some c)
      ∧ h = stripHit opts.includeVector c := by
  unfold searchCore at hmem
  rcases List.mem_map.mp hmem with ⟨c, hc, hh⟩
  have hc2 : c ∈ sortCands m ((latestFold (readStream st)).filterMap
      (candidateOf m (if m = Metric.cosine then normalizeVector q else q) opts)) :=
    List.mem_of_mem_take hc
  have hc3 : c ∈ (latestFold (readStream st)).filterMap
      (candidateOf m (if m = Metric.cosine then normalizeVector q else q) opts) := by
    unfold sortCands at hc2
    by_cases hm : m = Metric.euclidean
    · rw [if_pos hm] at hc2
      exact List.mem_mergeSort.mp hc2
    · rw [if_neg hm] at hc2
      exact List.mem_mergeSort.mp hc2
  rcases List.mem_filterMap.mp hc3 with ⟨p, hp, hcp⟩
  exact ⟨c, ⟨p, hp, hcp⟩, hh.symm⟩

end Coldbase

namespace Coldbase

/-- C8.  For every vector-collection state and valid query (length =
dimension), `search` succeeds and: survivors satisfy the threshold
(score at most the threshold for euclidean, at least for cosine and
dot product); results are sorted ascending by score for euclidean and
descending otherwise; at most `limit` (default 10) results are
returned; and with `includeVector` false (the default) the returned
data carries no vector field. -/
theorem claim8_search_threshold_sort_limit_strip
    (m : Metric) (dimension : Nat) (st : Store VDoc) (q : List ℚ) (opts : SearchOpts)
    (hq : q.length = dimension) :
    ∃ res, search m dimension st q opts = some res
    ∧ (∀ t, opts.threshold = some t → ∀ h2 ∈ res,
        (m = Metric.euclidean → h2.score ≤ t) ∧ (m ≠ Metric.euclidean → t ≤ h2.score))
    ∧ res.length ≤ opts.limit.getD 10
    ∧ (m = Metric.euclidean → res.Pairwise (fun a b => a.score ≤ b.score))
    ∧ (m ≠ Metric.euclidean → res.Pairwise (fun a b => b.score ≤ a.score))
    ∧ (opts.includeVector = false → ∀ h2 ∈ res, h2.data.vector = none) := by
  refine ⟨searchCore m st q opts, ?_, ?_, ?_, ?_, ?_, ?_⟩
  · unfold search
    rw [if_pos (show validateVector q dimension = true by simp [validateVector, hq])]
  · intro t ht h2 hmem
    rcases searchCore_elim hmem with ⟨c, ⟨p, hp, hcp⟩, hh⟩
    have hth := candidateOf_threshold hcp
    rw [ht] at hth
    have hth2 : (if m = Metric.euclidean then decide (c.score ≤ t)
        else decide (t ≤ c.score)) = true := hth
    have hsc : h2.score = c.score := by rw [hh]; exact stripHit_score _ c
    constructor
    · intro hm
      rw [hsc]
      rw [if_pos hm] at hth2
      exact of_decide_eq_true hth2
    · intro hm
      rw [hsc]
      rw [if_neg hm] at hth2
      exact of_decide_eq_true hth2
  · unfold searchCore
    rw [List.length_map]
    exact List.length_take_le _ _
  · intro hm
    unfold searchCore
    rw [List.pairwise_map]
    refine List.Pairwise.sublist (List.take_sublist _ _) ?_
    have hsorted := @List.sorted_mergeSort Cand (fun a b => decide (a.score ≤ b.score))
      (fun a b c hab hbc => decide_eq_true
        (le_trans (of_decide_eq_true hab) (of_decide_eq_true hbc)))
      (fun a b => by
        rcases le_total a.score b.score with h | h
        · simp [h]
        · simp [h])
      ((latestFold (readStream st)).filterMap
        (candidateOf m (if m = Metric.cosine then normalizeVector q else q) opts))
    unfold sortCands
    rw [if_pos hm]
    refine hsorted.imp ?_
    intro a b hab
    rw [stripHit_score, stripHit_score]
    exact of_decide_eq_true hab
  · intro hm
    unfold searchCore
    rw [List.pairwise_map]
    refine List.Pairwise.sublist (List.take_sublist _ _) ?_
    have hsorted := @List.sorted_mergeSort Cand (fun a b => decide (b.score ≤ a.score))
      (fun a b c hab hbc => decide_eq_true
        (le_trans (of_decide_eq_true hbc) (of_decide_eq_true hab)))
      (fun a b => by
        rcases le_total b.score a.score with h | h
        · simp [h]
        · simp [h])
      ((latestFold (readStream st)).filterMap
        (candidateOf m (if m = Metric.cosine then normalizeVector q else q) opts))
    unfold sortCands
    rw [if_neg hm]
    refine hsorted.imp ?_
    intro a b hab
    rw [stripHit_score, stripHit_score]
    exact of_decide_eq_true hab
  · intro hiv h2 hmem
    rcases searchCore_elim hmem with ⟨c, _, hh⟩
    rw [hh]
    unfold stripHit
    rw [hiv]
    rfl

def witStore8 : Store VDoc :=
  ⟨some [Line.entry ⟨"a", some ⟨[1, 0], 1⟩, some 1⟩,
    Line.entry ⟨"b", some ⟨[0, 1], 2⟩, some 2⟩], [], none, none, none, none⟩

def witOpts8 : SearchOpts := ⟨none, some 0, none, false⟩

theorem claim8_witness :
    (([1, 0] : List ℚ).length = 2)
  ∧ (∃ res, search Metric.cosine 2 witStore8 [1, 0] witOpts8 = some res
    ∧ (∀ t, witOpts8.threshold = some t → ∀ h2 ∈ res,
        (Metric.cosine = Metric.euclidean → h2.score ≤ t)
        ∧ (Metric.cosine ≠ Metric.euclidean → t ≤ h2.score))
    ∧ res.length ≤ witOpts8.limit.getD 10
    ∧ (Metric.cosine = Metric.euclidean → res.Pairwise (fun a b => a.score ≤ b.score))
    ∧ (Metric.cosine ≠ Metric.euclidean → res.Pairwise (fun a b => b.score ≤ a.score))
    ∧ (witOpts8.includeVector = false → ∀ h2 ∈ res, h2.data.vector = none)) :=
  ⟨rfl, claim8_search_threshold_sort_limit_strip Metric.cosine 2 witStore8 [1, 0] witOpts8 rfl⟩

end Coldbase
